import Mathlib

/-!
Verification of the `pg::brle` binary run-length codec (`src/brle.h`).

The development is organised as follows.

* Bit-level infrastructure: lists of booleans (least-significant bit first)
  and their correspondence with natural numbers (`bitsToNat` / `natToBits`).
* A shallow embedding of the source: the `detail` block-format helpers, the
  incremental `encoder` (`push` / `flush`) and the incremental `decoder`
  (`pull`), with machine registers modelled as `Nat` reduced mod `2 ^ w`
  and the C++ loops modelled with explicit fuel that provably suffices.
* A list-level specification encoder `encSpec` and the bit-stream semantics
  `blockBits` of encoded blocks.
* Simulation proofs relating the machines to the list-level semantics, and
  the round-trip, size-bound, threshold and invariant theorems.
-/

set_option maxRecDepth 4096

namespace PG
namespace Brle

/-! ### Bit lists, least-significant bit first -/

def bitsToNat : List Bool → Nat
  | [] => 0
  | b :: l => (if b then 1 else 0) + 2 * bitsToNat l

def natToBits : Nat → Nat → List Bool
  | 0, _ => []
  | w + 1, n => decide (n % 2 = 1) :: natToBits w (n / 2)

@[simp] theorem natToBits_zero (n : Nat) : natToBits 0 n = [] := rfl

@[simp] theorem natToBits_succ (w n : Nat) :
    natToBits (w + 1) n = decide (n % 2 = 1) :: natToBits w (n / 2) := rfl

@[simp] theorem bitsToNat_nil : bitsToNat [] = 0 := rfl

@[simp] theorem bitsToNat_cons (b : Bool) (l : List Bool) :
    bitsToNat (b :: l) = (if b then 1 else 0) + 2 * bitsToNat l := rfl

@[simp] theorem length_natToBits (w n : Nat) : (natToBits w n).length = w := by
  induction w generalizing n with
  | zero => rfl
  | succ w ih => simp [natToBits, ih]

theorem bitsToNat_lt (l : List Bool) : bitsToNat l < 2 ^ l.length := by
  induction l with
  | nil => simp [bitsToNat]
  | cons b l ih =>
    simp only [bitsToNat, List.length_cons, pow_succ]
    cases b <;> simp <;> omega

@[simp] theorem bitsToNat_append (a b : List Bool) :
    bitsToNat (a ++ b) = bitsToNat a + 2 ^ a.length * bitsToNat b := by
  induction a with
  | nil => simp
  | cons x a ih =>
    simp only [List.cons_append, bitsToNat_cons, ih, List.length_cons, pow_succ]
    ring

theorem mod_two_pow_succ_decomp (e x k : Nat) (he : e ≤ 1) :
    (e + 2 * x) % 2 ^ (k + 1) = e + 2 * (x % 2 ^ k) := by
  have hx := Nat.div_add_mod x (2 ^ k)
  have hpow : 2 ^ (k + 1) = 2 * 2 ^ k := by rw [pow_succ]; ring
  have hlt : e + 2 * (x % 2 ^ k) < 2 ^ (k + 1) := by
    have := Nat.mod_lt x (Nat.two_pow_pos k)
    omega
  have hmul : 2 ^ (k + 1) * (x / 2 ^ k) = 2 * (2 ^ k * (x / 2 ^ k)) := by
    rw [hpow]; ring
  calc (e + 2 * x) % 2 ^ (k + 1)
      = (e + 2 * (x % 2 ^ k) + 2 ^ (k + 1) * (x / 2 ^ k)) % 2 ^ (k + 1) := by
        congr 1; omega
    _ = (e + 2 * (x % 2 ^ k)) % 2 ^ (k + 1) := by rw [Nat.add_mul_mod_self_left]
    _ = e + 2 * (x % 2 ^ k) := Nat.mod_eq_of_lt hlt

theorem div_two_pow_succ_decomp (e x k : Nat) (he : e ≤ 1) :
    (e + 2 * x) / 2 ^ (k + 1) = x / 2 ^ k := by
  have hpow : 2 ^ (k + 1) = 2 * 2 ^ k := by rw [pow_succ]; ring
  rw [hpow, ← Nat.div_div_eq_div_mul]
  congr 1
  omega

theorem bitsToNat_natToBits (w n : Nat) : bitsToNat (natToBits w n) = n % 2 ^ w := by
  induction w generalizing n with
  | zero => simp [Nat.mod_one]
  | succ w ih =>
    simp only [natToBits_succ, bitsToNat_cons, ih]
    have hd := mod_two_pow_succ_decomp (n % 2) (n / 2) w (by omega)
    have hn : n % 2 + 2 * (n / 2) = n := by omega
    rw [hn] at hd
    rw [hd]
    rcases Nat.mod_two_eq_zero_or_one n with h | h <;> simp [h]

theorem bitsToNat_natToBits_of_lt {w n : Nat} (h : n < 2 ^ w) :
    bitsToNat (natToBits w n) = n := by
  rw [bitsToNat_natToBits, Nat.mod_eq_of_lt h]

theorem natToBits_bitsToNat (l : List Bool) : natToBits l.length (bitsToNat l) = l := by
  induction l with
  | nil => rfl
  | cons b l ih =>
    simp only [List.length_cons, natToBits_succ, bitsToNat_cons]
    have he : ((if b = true then 1 else 0) + 2 * bitsToNat l) % 2
        = if b = true then 1 else 0 := by
      cases b <;> simp [Nat.add_mul_mod_self_left]
    have hd : ((if b = true then 1 else 0) + 2 * bitsToNat l) / 2 = bitsToNat l := by
      cases b <;> simp <;> omega
    rw [he, hd, ih]
    cases b <;> simp

theorem bitsToNat_take (l : List Bool) (k : Nat) :
    bitsToNat (l.take k) = bitsToNat l % 2 ^ k := by
  induction l generalizing k with
  | nil => simp
  | cons b l ih =>
    cases k with
    | zero => simp [Nat.mod_one]
    | succ k =>
      simp only [List.take_succ_cons, bitsToNat_cons, ih,
        mod_two_pow_succ_decomp (if b = true then 1 else 0) (bitsToNat l) k
          (by cases b <;> simp)]

theorem bitsToNat_drop (l : List Bool) (k : Nat) :
    bitsToNat (l.drop k) = bitsToNat l / 2 ^ k := by
  induction l generalizing k with
  | nil => simp
  | cons b l ih =>
    cases k with
    | zero => simp
    | succ k =>
      simp only [List.drop_succ_cons, bitsToNat_cons, ih,
        div_two_pow_succ_decomp (if b = true then 1 else 0) (bitsToNat l) k
          (by cases b <;> simp)]

theorem take_natToBits {k w : Nat} (h : k ≤ w) (n : Nat) :
    (natToBits w n).take k = natToBits k n := by
  induction k generalizing w n with
  | zero => simp
  | succ k ih =>
    cases w with
    | zero => omega
    | succ w => simp [natToBits, ih (Nat.le_of_succ_le_succ h)]

theorem drop_natToBits {k w : Nat} (h : k ≤ w) (n : Nat) :
    (natToBits w n).drop k = natToBits (w - k) (n / 2 ^ k) := by
  induction k generalizing w n with
  | zero => simp
  | succ k ih =>
    cases w with
    | zero => omega
    | succ w =>
      simp only [natToBits_succ, List.drop_succ_cons, ih (Nat.le_of_succ_le_succ h)]
      congr 1
      · omega
      · rw [Nat.div_div_eq_div_mul]
        congr 1
        rw [pow_succ]
        ring

@[simp] theorem bitsToNat_replicate_false (k : Nat) :
    bitsToNat (List.replicate k false) = 0 := by
  induction k with
  | zero => rfl
  | succ k ih => simp [List.replicate_succ, ih]

theorem bitsToNat_replicate_true (k : Nat) :
    bitsToNat (List.replicate k true) = 2 ^ k - 1 := by
  induction k with
  | zero => rfl
  | succ k ih =>
    simp only [List.replicate_succ, bitsToNat_cons, ih, pow_succ, if_pos]
    have := Nat.one_le_two_pow (n := k)
    omega

theorem bitsToNat_append_replicate_false (l : List Bool) (k : Nat) :
    bitsToNat (l ++ List.replicate k false) = bitsToNat l := by
  simp

/-! ### Leading-run counting -/

def leadCount (b : Bool) : List Bool → Nat
  | [] => 0
  | x :: l => if x = b then leadCount b l + 1 else 0

@[simp] theorem leadCount_nil (b : Bool) : leadCount b [] = 0 := rfl

theorem leadCount_cons (b x : Bool) (l : List Bool) :
    leadCount b (x :: l) = if x = b then leadCount b l + 1 else 0 := rfl

@[simp] theorem leadCount_cons_self (b : Bool) (l : List Bool) :
    leadCount b (b :: l) = leadCount b l + 1 := by
  simp [leadCount_cons]

@[simp] theorem leadCount_cons_ne {b x : Bool} (h : x ≠ b) (l : List Bool) :
    leadCount b (x :: l) = 0 := by
  simp [leadCount_cons, h]

theorem leadCount_le_length (b : Bool) (l : List Bool) : leadCount b l ≤ l.length := by
  induction l with
  | nil => simp
  | cons x l ih =>
    by_cases h : x = b
    · subst h; simp; omega
    · simp [h]

theorem leadCount_take (b : Bool) (l : List Bool) (n : Nat) :
    leadCount b (l.take n) = min (leadCount b l) n := by
  induction l generalizing n with
  | nil => simp
  | cons x l ih =>
    cases n with
    | zero => simp
    | succ n =>
      by_cases h : x = b
      · subst h; simp [ih]; omega
      · simp [h]

theorem take_eq_replicate_of_le_leadCount {b : Bool} {l : List Bool} {k : Nat}
    (h : k ≤ leadCount b l) : l.take k = List.replicate k b := by
  induction l generalizing k with
  | nil => simp at h; simp [h]
  | cons x l ih =>
    cases k with
    | zero => simp
    | succ k =>
      by_cases hx : x = b
      · subst hx
        simp only [leadCount_cons_self] at h
        simp [List.replicate_succ, ih (show k ≤ leadCount x l by omega)]
      · simp [leadCount_cons_ne hx] at h

theorem leadCount_append_left {b : Bool} {l : List Bool} (r : List Bool)
    (h : leadCount b l < l.length) : leadCount b (l ++ r) = leadCount b l := by
  induction l with
  | nil => simp at h
  | cons x l ih =>
    by_cases hx : x = b
    · subst hx
      simp only [leadCount_cons_self, List.length_cons] at h
      simp [ih (by omega)]
    · simp [List.cons_append, leadCount_cons_ne hx]

theorem drop_leadCount_head {b : Bool} {l : List Bool}
    (h : leadCount b l < l.length) :
    ∃ t, l.drop (leadCount b l) = (!b) :: t := by
  induction l with
  | nil => simp at h
  | cons x l ih =>
    by_cases hx : x = b
    · subst hx
      simp only [leadCount_cons_self, List.length_cons] at h ⊢
      simpa using ih (by omega)
    · refine ⟨l, ?_⟩
      simp only [leadCount_cons_ne hx, List.drop_zero]
      cases x <;> cases b <;> simp_all

/-! ### Block format: embedding of `namespace detail` from `src/brle.h`

`brle8` is `uint8_t`; we model machine words and bytes as `Nat`, with
explicit reduction mod `2 ^ w` wherever the C++ register width matters.
The `int` quantities of the source that are provably non-negative are
modelled as `Nat`; the ones that genuinely go negative (`bits` in
`encoder::push`, `buffer_size` during `encoder::flush`) are `Int`. -/

abbrev brle8 := Nat

namespace detail

def mode_literal : Nat := 0x00

def mode_zeros : Nat := 0x80

def mode_ones : Nat := 0xC0

def max_count : Nat := 71

def min_brle_len : Nat := 8

def literal_size : Nat := 7

def brle8_mode (rle : brle8) : Nat := rle &&& 0xC0

def count (rle : brle8) : Nat := (rle &&& 0x3F) + min_brle_len

def make_literal (buffer : Nat) : brle8 := buffer &&& 0x7F

/-- The source asserts `count >= min_brle_len && count <= max_count`; the
subtraction below is the C++ `count - min_brle_len` (never negative when the
assertion holds; `encRunCalls_asserts` below shows every count the encoder
passes is in that range). -/
def make_zeros (count : Nat) : brle8 := mode_zeros ||| (count - min_brle_len)

def make_ones (count : Nat) : brle8 := mode_ones ||| (count - min_brle_len)

/-- Embedding of `std::countr_zero` on a `w`-bit unsigned value (the non-C++20
De Bruijn code path of the source computes the same function): the number of
trailing zero bits, and `w` when the value is zero. -/
def countr_zero : Nat → Nat → Nat
  | 0, _ => 0
  | w + 1, value => if value % 2 = 1 then 0 else countr_zero w (value / 2) + 1

/-- The source defines `countr_one(value)` as `countr_zero(~value)`; on a
`w`-bit register `~value` is `value ^^^ (2 ^ w - 1)`. -/
def countr_one (w value : Nat) : Nat := countr_zero w (value ^^^ (2 ^ w - 1))

end detail

/-! ### The incremental encoder (`class encoder` of `src/brle.h`) -/

inductive encode_state
  | init
  | zeros
  | ones
deriving DecidableEq, Repr

structure encoder where
  output : List brle8
  buffer : Nat
  buffer_size : Int
  state : encode_state
  rlen : Nat
deriving DecidableEq, Repr

def encoder.initSt : encoder := ⟨[], 0, 0, .init, 0⟩

/-- The private `encoder::push( data, zeros, ones )` drain step: returns the
updated encoder (output blocks are accumulated in `output`) and the number of
consumed bits it reports. -/
def enc_push_step (e : encoder) (data : Nat) (zeros ones : Nat) : encoder × Nat :=
  match e.state with
  | .init =>
    if detail.literal_size < zeros then
      ({ e with rlen := zeros, state := .zeros }, zeros)
    else if detail.literal_size < ones then
      ({ e with rlen := ones, state := .ones }, ones)
    else
      ({ e with output := e.output ++ [detail.make_literal data] }, detail.literal_size)
  | .zeros =>
    if 0 < zeros then
      let consumed := min (detail.max_count - e.rlen) zeros
      let rlen1 := e.rlen + consumed
      if rlen1 = detail.max_count then
        ({ e with output := e.output ++ [detail.make_zeros detail.max_count],
                  state := .init, rlen := 0 }, consumed)
      else
        ({ e with rlen := rlen1 }, consumed)
    else
      ({ e with output := e.output ++ [detail.make_zeros e.rlen],
                state := .init, rlen := 0 }, 1)
  | .ones =>
    if 0 < ones then
      let consumed := min (detail.max_count - e.rlen) ones
      let rlen1 := e.rlen + consumed
      if rlen1 = detail.max_count then
        ({ e with output := e.output ++ [detail.make_ones detail.max_count],
                  state := .init, rlen := 0 }, consumed)
      else
        ({ e with rlen := rlen1 }, consumed)
    else
      ({ e with output := e.output ++ [detail.make_ones e.rlen],
                state := .init, rlen := 0 }, 1)

/-- The do/while loop of the public `encoder::push`.  The C++ loop runs until
`bits` drops below zero; `fuel` bounds the iteration count (the public `push`
passes `w + 1`, which always suffices because every drain step consumes at
least one bit from a register of at most `w` buffered bits). -/
def enc_push_loop (w data : Nat) : Nat → encoder → Nat → Int → encoder × Nat × Int
  | 0, e, shift_buffer, bits => (e, shift_buffer, bits)
  | fuel + 1, e, shift_buffer, bits =>
    let sb := shift_buffer ||| ((data <<< bits.toNat) % 2 ^ w)
    let zeros := detail.countr_zero w sb
    let ones := detail.countr_one w sb
    let step := enc_push_step e sb zeros ones
    let sb2 := sb >>> step.2
    let bits2 := bits - (step.2 : Int)
    if (w : Int) ≤ bits2 + (w : Int) then
      enc_push_loop w data fuel step.1 sb2 bits2
    else
      (step.1, sb2, bits2)

/-- Embedding of the public `encoder::push( data )`. -/
def encoder.push (w : Nat) (e : encoder) (data : Nat) : encoder :=
  let r := enc_push_loop w data (w + 1) e e.buffer e.buffer_size
  let buffer1 : Nat :=
    if 0 ≤ r.2.2 then r.2.1 ||| ((data <<< r.2.2.toNat) % 2 ^ w)
    else data >>> (-r.2.2).toNat
  { r.1 with buffer := buffer1, buffer_size := r.2.2 + (w : Int) }

/-- The while loop of `encoder::flush`; `fuel` bounds the iterations (the
public `flush` passes `w + 2`, which always suffices). -/
def enc_flush_loop (w : Nat) : Nat → encoder → Nat → Int → encoder × Nat × Int
  | 0, e, buffer, bsize => (e, buffer, bsize)
  | fuel + 1, e, buffer, bsize =>
    if (detail.literal_size : Int) ≤ bsize ∨ e.state ≠ .init then
      let zeros := min ((detail.countr_zero w buffer : Int)) bsize
      let ones := min ((detail.countr_one w buffer : Int)) bsize
      let step := enc_push_step e buffer zeros.toNat ones.toNat
      enc_flush_loop w fuel step.1 (buffer >>> step.2) (bsize - (step.2 : Int))
    else
      (e, buffer, bsize)

/-- Embedding of `encoder::flush`. -/
def encoder.flush (w : Nat) (e : encoder) : encoder :=
  let r := enc_flush_loop w (w + 2) e e.buffer e.buffer_size
  match r.1.state with
  | .init =>
    if 0 < r.2.2 then
      ⟨r.1.output ++ [detail.make_literal r.2.1], 0, 0, .init, 0⟩
    else
      ⟨r.1.output, 0, 0, .init, 0⟩
  | .zeros => ⟨r.1.output ++ [detail.make_zeros r.1.rlen], 0, 0, .init, 0⟩
  | .ones => ⟨r.1.output ++ [detail.make_ones r.1.rlen], 0, 0, .init, 0⟩

/-- Embedding of the bulk `encode( input, last, output )` wrapper. -/
def encode (w : Nat) (input : List Nat) : List brle8 :=
  ((input.foldl (fun e d => e.push w d) encoder.initSt).flush w).output

/-! ### The incremental decoder (`class decoder` of `src/brle.h`) -/

inductive decode_state
  | read
  | zeros
  | zeros_max
  | ones
  | ones_max
deriving DecidableEq, Repr

inductive decoder_status
  | success
  | done
deriving DecidableEq, Repr

structure decoder_result where
  data : Nat
  status : decoder_status
deriving DecidableEq, Repr

structure decoder where
  input : List brle8
  buffer : Nat
  buffer_size : Int
  state : decode_state
  rlen : Nat
deriving DecidableEq, Repr

/-- The `while( true )` loop of `decoder::pull`, with explicit fuel (the
public `pull` passes `2 * input.length + 2`, which always suffices: every
iteration either consumes one input block or moves a run state back to
`read`). -/
def decoder.pullF (w : Nat) : Nat → decoder → decoder × decoder_result
  | 0, d => (d, ⟨0, .done⟩)
  | fuel + 1, d =>
    match d.state with
    | .read =>
      match d.input with
      | [] => (d, ⟨0, .done⟩)
      | inb :: rest =>
        if detail.brle8_mode inb = detail.mode_zeros then
          let st : decode_state :=
            if detail.count inb < detail.max_count then .zeros else .zeros_max
          decoder.pullF w fuel ⟨rest, d.buffer, d.buffer_size, st, detail.count inb⟩
        else if detail.brle8_mode inb = detail.mode_ones then
          let st : decode_state :=
            if detail.count inb < detail.max_count then .ones else .ones_max
          decoder.pullF w fuel ⟨rest, d.buffer, d.buffer_size, st, detail.count inb⟩
        else
          let buffer1 := d.buffer ||| ((inb <<< d.buffer_size.toNat) % 2 ^ w)
          let produced := d.buffer_size + (detail.literal_size : Int)
          if (w : Int) ≤ produced then
            let shift := (w : Int) - d.buffer_size
            (⟨rest, inb >>> shift.toNat, (detail.literal_size : Int) - shift,
               d.state, d.rlen⟩,
             ⟨buffer1, .success⟩)
          else
            decoder.pullF w fuel ⟨rest, buffer1, produced, d.state, d.rlen⟩
    | .zeros =>
      let free := (w : Int) - d.buffer_size
      if free < ((d.rlen + 1 : Nat) : Int) then
        (⟨d.input, 0, 0, d.state, d.rlen - free.toNat⟩, ⟨d.buffer, .success⟩)
      else
        let buffer1 := d.buffer ||| ((1 <<< (d.rlen + d.buffer_size.toNat)) % 2 ^ w)
        if ((d.rlen + 1 : Nat) : Int) = free then
          (⟨d.input, 0, 0, .read, d.rlen⟩, ⟨buffer1, .success⟩)
        else
          decoder.pullF w fuel
            ⟨d.input, buffer1, d.buffer_size + ((d.rlen + 1 : Nat) : Int), .read, d.rlen⟩
    | .zeros_max =>
      let free := (w : Int) - d.buffer_size
      if free < (d.rlen : Int) then
        (⟨d.input, 0, 0, d.state, d.rlen - free.toNat⟩, ⟨d.buffer, .success⟩)
      else if (d.rlen : Int) = free then
        (⟨d.input, 0, 0, .read, d.rlen⟩, ⟨d.buffer, .success⟩)
      else
        decoder.pullF w fuel
          ⟨d.input, d.buffer, d.buffer_size + (d.rlen : Int), .read, d.rlen⟩
    | .ones =>
      let free := (w : Int) - d.buffer_size
      let buffer1 := d.buffer ||| (((2 ^ w - 1) <<< d.buffer_size.toNat) % 2 ^ w)
      if free < ((d.rlen + 1 : Nat) : Int) then
        (⟨d.input, 0, 0, d.state, d.rlen - free.toNat⟩, ⟨buffer1, .success⟩)
      else
        let mask :=
          (2 ^ w - 1) ^^^ (((2 ^ w - 1) <<< (d.buffer_size + (d.rlen : Int)).toNat) % 2 ^ w)
        let buffer2 := buffer1 &&& mask
        if ((d.rlen + 1 : Nat) : Int) = free then
          (⟨d.input, 0, 0, .read, d.rlen⟩, ⟨buffer2, .success⟩)
        else
          decoder.pullF w fuel
            ⟨d.input, buffer2, d.buffer_size + ((d.rlen + 1 : Nat) : Int), .read, d.rlen⟩
    | .ones_max =>
      let free := (w : Int) - d.buffer_size
      let buffer1 := d.buffer ||| (((2 ^ w - 1) <<< d.buffer_size.toNat) % 2 ^ w)
      if free < (d.rlen : Int) then
        (⟨d.input, buffer1, 0, d.state, d.rlen - free.toNat⟩, ⟨buffer1, .success⟩)
      else
        let size := d.buffer_size + (d.rlen : Int)
        if size = (w : Int) then
          (⟨d.input, 0, 0, .read, d.rlen⟩, ⟨buffer1, .success⟩)
        else
          let mask := (2 ^ w - 1) ^^^ (((2 ^ w - 1) <<< size.toNat) % 2 ^ w)
          decoder.pullF w fuel ⟨d.input, buffer1 &&& mask, size, .read, d.rlen⟩

/-- Embedding of the public `decoder::pull`. -/
def decoder.pull (w : Nat) (d : decoder) : decoder × decoder_result :=
  decoder.pullF w (2 * d.input.length + 2) d

/-- The drive-to-completion loop of the bulk `decode` wrapper. -/
def decodeLoop (w : Nat) : Nat → decoder → List Nat → List Nat
  | 0, _, acc => acc
  | fuel + 1, d, acc =>
    let r := d.pull w
    match r.2.status with
    | .done => acc
    | .success => decodeLoop w fuel r.1 (acc ++ [r.2.data])

/-- Embedding of the bulk `decode( input, last, output )` wrapper; the fuel
`72 * input.length + 2` always suffices because each produced word consumes at
least `w ≥ 1` bits of a stream of at most `72` bits per block. -/
def decode (w : Nat) (input : List brle8) : List Nat :=
  decodeLoop w (72 * input.length + 2) ⟨input, 0, 0, .read, 0⟩ []

/-! ### Bit-stream semantics of blocks and words -/

/-- The logical bit content of one encoded block: a literal carries its low 7
bits; a run block carries `count` copies of the run bit, followed by one
stuffed terminator bit of the opposite value unless `count = max_count`. -/
def blockBits (b : brle8) : List Bool :=
  if detail.brle8_mode b = detail.mode_zeros then
    List.replicate (detail.count b) false ++
      (if detail.count b < detail.max_count then [true] else [])
  else if detail.brle8_mode b = detail.mode_ones then
    List.replicate (detail.count b) true ++
      (if detail.count b < detail.max_count then [false] else [])
  else
    natToBits 7 b

def blocksBits (bs : List brle8) : List Bool := bs.flatMap blockBits

/-- Words are logically concatenated least-significant-bit first. -/
def wordsToBits (w : Nat) (ws : List Nat) : List Bool := ws.flatMap (natToBits w)

/-- Chunk a bit stream into full `w`-bit words, discarding a trailing
incomplete word. -/
def wordsOfBits (w : Nat) (L : List Bool) : List Nat :=
  if h : 0 < w ∧ w ≤ L.length then
    bitsToNat (L.take w) :: wordsOfBits w (L.drop w)
  else []
termination_by L.length
decreasing_by simp; omega

/-! ### The list-level specification encoder -/

def encWeight : encode_state → Nat → Nat
  | .init, _ => 1
  | _, r => if r < 71 then 0 else 2

/-- List-level specification of the encoder: `encSpec st r L` is the block
sequence the machine emits when its run state is `st` with `r` pending run
bits, the remaining logical bit stream is `L`, and the stream is then
flushed. -/
def encSpec : encode_state → Nat → List Bool → List brle8
  | .init, _, L =>
    if 7 < leadCount false L then encSpec .zeros 0 L
    else if 7 < leadCount true L then encSpec .ones 0 L
    else if L.isEmpty then []
    else detail.make_literal (bitsToNat (L.take 7)) :: encSpec .init 0 (L.drop 7)
  | .zeros, r, L =>
    if 71 ≤ r + leadCount false L then
      detail.make_zeros 71 :: encSpec .init 0 (L.drop (min (71 - r) (leadCount false L)))
    else if (L.drop (leadCount false L)).isEmpty then
      [detail.make_zeros (r + leadCount false L)]
    else
      detail.make_zeros (r + leadCount false L) ::
        encSpec .init 0 (L.drop (leadCount false L + 1))
  | .ones, r, L =>
    if 71 ≤ r + leadCount true L then
      detail.make_ones 71 :: encSpec .init 0 (L.drop (min (71 - r) (leadCount true L)))
    else if (L.drop (leadCount true L)).isEmpty then
      [detail.make_ones (r + leadCount true L)]
    else
      detail.make_ones (r + leadCount true L) ::
        encSpec .init 0 (L.drop (leadCount true L + 1))
termination_by st r L => 3 * L.length + encWeight st r
decreasing_by
  · have := leadCount_le_length false L
    simp only [encWeight]
    have h71 : (0 : Nat) < 71 := by norm_num
    simp only [if_pos h71]
    omega
  · have := leadCount_le_length true L
    simp only [encWeight]
    have h71 : (0 : Nat) < 71 := by norm_num
    simp only [if_pos h71]
    omega
  · have hL : ¬ L.isEmpty = true := by assumption
    have : 1 ≤ L.length := by
      cases L
      · simp at hL
      · simp
    simp only [encWeight, List.length_drop]
    omega
  · have hz := leadCount_le_length false L
    simp only [encWeight, List.length_drop]
    by_cases hr : r < 71 <;> simp [hr] <;> omega
  · have hz := leadCount_le_length false L
    have hne : ¬ (L.drop (leadCount false L)).isEmpty = true := by assumption
    have : leadCount false L < L.length := by
      by_contra hcon
      simp only [List.isEmpty_iff, List.drop_eq_nil_iff] at hne
      omega
    simp only [encWeight, List.length_drop]
    by_cases hr : r < 71 <;> simp [hr] <;> omega
  · have hz := leadCount_le_length true L
    simp only [encWeight, List.length_drop]
    by_cases hr : r < 71 <;> simp [hr] <;> omega
  · have hz := leadCount_le_length true L
    have hne : ¬ (L.drop (leadCount true L)).isEmpty = true := by assumption
    have : leadCount true L < L.length := by
      by_contra hcon
      simp only [List.isEmpty_iff, List.drop_eq_nil_iff] at hne
      omega
    simp only [encWeight, List.length_drop]
    by_cases hr : r < 71 <;> simp [hr] <;> omega

/-! ### Register / bit-list bridge lemmas -/

theorem countr_zero_eq_leadCount (w v : Nat) :
    detail.countr_zero w v = leadCount false (natToBits w v) := by
  induction w generalizing v with
  | zero => rfl
  | succ w ih =>
    simp only [detail.countr_zero, natToBits_succ]
    rcases Nat.mod_two_eq_zero_or_one v with h | h
    · simp [h, ih]
    · simp [h, leadCount_cons_ne]

theorem natToBits_xor_allOnes (w v : Nat) :
    natToBits w (v ^^^ (2 ^ w - 1)) = (natToBits w v).map (fun b => !b) := by
  induction w generalizing v with
  | zero => rfl
  | succ w ih =>
    simp only [natToBits_succ, List.map_cons]
    have hpow : 2 ^ (w + 1) = 2 * 2 ^ w := by rw [pow_succ]; ring
    have h1 : 1 ≤ 2 ^ w := Nat.one_le_two_pow
    have hmod : (2 ^ (w + 1) - 1) % 2 = 1 := by omega
    have hdiv : (2 ^ (w + 1) - 1) / 2 = 2 ^ w - 1 := by omega
    congr 1
    · rcases Nat.mod_two_eq_zero_or_one v with h | h
      · have : (v ^^^ (2 ^ (w + 1) - 1)) % 2 = 1 := by
          rw [Nat.xor_mod_two_eq_one]
          omega
        simp [h, this]
      · have : ¬ (v ^^^ (2 ^ (w + 1) - 1)) % 2 = 1 := by
          rw [Nat.xor_mod_two_eq_one]
          omega
        simp [h, this]
        omega
    · rw [Nat.xor_div_two, hdiv, ih]

theorem leadCount_map_not (b : Bool) (l : List Bool) :
    leadCount b (l.map fun x => !x) = leadCount (!b) l := by
  induction l with
  | nil => simp
  | cons x l ih =>
    cases x <;> cases b <;>
      simp_all [leadCount_cons_self, leadCount_cons_ne]

theorem countr_one_eq_leadCount (w v : Nat) :
    detail.countr_one w v = leadCount true (natToBits w v) := by
  unfold detail.countr_one
  rw [countr_zero_eq_leadCount, natToBits_xor_allOnes]
  simpa using leadCount_map_not false (natToBits w v)

theorem lor_shiftLeft_eq_add {a : Nat} (k d : Nat) (h : a < 2 ^ k) :
    a ||| (d <<< k) = a + 2 ^ k * d := by
  rw [Nat.shiftLeft_eq, Nat.mul_comm d (2 ^ k), Nat.or_comm, ← Nat.mul_add_lt_is_or h]
  omega

theorem lor_eq_add_of_lt {a b k : Nat} (ha : a < 2 ^ k) (hb : 2 ^ k ∣ b) :
    a ||| b = a + b := by
  obtain ⟨c, rfl⟩ := hb
  rw [Nat.or_comm, ← Nat.mul_add_lt_is_or ha]
  omega

theorem or_mul_pow (p x y : Nat) : 2 ^ p * (x ||| y) = 2 ^ p * x ||| 2 ^ p * y := by
  apply Nat.eq_of_testBit_eq
  intro i
  simp [Nat.testBit_mul_pow_two, Bool.and_or_distrib_left]

theorem bit_or_decomp (e x y : Nat) (he : e ≤ 1) :
    (e + 2 * x) ||| (e + 2 * y) = e + 2 * (x ||| y) := by
  have hm : ∀ z : Nat, (e + 2 * z) % 2 = e := by omega
  have hd : ∀ z : Nat, (e + 2 * z) / 2 = z := by omega
  apply Nat.eq_of_testBit_eq
  intro i
  cases i with
  | zero => simp [Nat.testBit_zero, hm]
  | succ i => simp [Nat.testBit_add_one, Nat.or_div_two, hd]

theorem prefix_lor {T S : List Bool} (h : T <+: S) :
    bitsToNat T ||| bitsToNat S = bitsToNat S := by
  induction T generalizing S with
  | nil => simp
  | cons b T ih =>
    obtain ⟨u, rfl⟩ := h
    simp only [List.cons_append, bitsToNat_cons]
    rw [bit_or_decomp _ _ _ (by cases b <;> simp), ih ⟨u, rfl⟩]

theorem bitsToNat_lor_overlay (A S : List Bool) (p : Nat) (hp : p ≤ A.length)
    (hsub : A.drop p <+: S) :
    bitsToNat A ||| (bitsToNat S <<< p) = bitsToNat (A.take p ++ S) := by
  have hlen : (A.take p).length = p := by
    simp [List.length_take]
    omega
  have ht : bitsToNat (A.take p) < 2 ^ p := by
    have := bitsToNat_lt (A.take p)
    rwa [hlen] at this
  conv_lhs => rw [← List.take_append_drop p A]
  rw [bitsToNat_append, bitsToNat_append, hlen, Nat.shiftLeft_eq,
    Nat.mul_comm (bitsToNat S) (2 ^ p)]
  calc bitsToNat (A.take p) + 2 ^ p * bitsToNat (A.drop p) ||| 2 ^ p * bitsToNat S
      = (2 ^ p * bitsToNat (A.drop p) ||| bitsToNat (A.take p)) ||| 2 ^ p * bitsToNat S := by
        rw [← Nat.mul_add_lt_is_or ht, Nat.add_comm]
    _ = (bitsToNat (A.take p) ||| 2 ^ p * bitsToNat (A.drop p)) ||| 2 ^ p * bitsToNat S := by
        rw [Nat.or_comm (2 ^ p * bitsToNat (A.drop p))]
    _ = bitsToNat (A.take p) ||| (2 ^ p * bitsToNat (A.drop p) ||| 2 ^ p * bitsToNat S) :=
        Nat.or_assoc ..
    _ = bitsToNat (A.take p) ||| 2 ^ p * (bitsToNat (A.drop p) ||| bitsToNat S) := by
        rw [or_mul_pow]
    _ = bitsToNat (A.take p) ||| 2 ^ p * bitsToNat S := by rw [prefix_lor hsub]
    _ = 2 ^ p * bitsToNat S ||| bitsToNat (A.take p) := Nat.or_comm ..
    _ = 2 ^ p * bitsToNat S + bitsToNat (A.take p) := (Nat.mul_add_lt_is_or ht _).symm
    _ = bitsToNat (A.take p) + 2 ^ p * bitsToNat S := by omega

theorem shiftRight_bitsToNat (l : List Bool) (k : Nat) :
    bitsToNat l >>> k = bitsToNat (l.drop k) := by
  rw [Nat.shiftRight_eq_div_pow, bitsToNat_drop]

theorem allOnes_shift_mod {k w : Nat} (h : k ≤ w) :
    ((2 ^ w - 1) <<< k) % 2 ^ w = 2 ^ w - 2 ^ k := by
  rw [Nat.shiftLeft_eq]
  have hw : 1 ≤ 2 ^ w := Nat.one_le_two_pow
  have hk1 : 1 ≤ 2 ^ k := Nat.one_le_two_pow
  have hkw : 2 ^ k ≤ 2 ^ w := Nat.pow_le_pow_right (by norm_num) h
  have e1 : (2 ^ w - 1) * 2 ^ k = 2 ^ w * 2 ^ k - 2 ^ k := by
    rw [Nat.sub_mul, one_mul]
  have e2 : 2 ^ w * (2 ^ k - 1) = 2 ^ w * 2 ^ k - 2 ^ w := by
    rw [Nat.mul_comm (2 ^ w) (2 ^ k - 1), Nat.sub_mul, one_mul, Nat.mul_comm]
  have hP : 2 ^ w ≤ 2 ^ w * 2 ^ k := Nat.le_mul_of_pos_right _ (by omega)
  have h1 : (2 ^ w - 1) * 2 ^ k = 2 ^ w * (2 ^ k - 1) + (2 ^ w - 2 ^ k) := by omega
  rw [h1, Nat.mul_add_mod]
  exact Nat.mod_eq_of_lt (by omega)

theorem sub_pow_eq_mul (k w : Nat) (h : k ≤ w) :
    2 ^ w - 2 ^ k = 2 ^ k * (2 ^ (w - k) - 1) := by
  have e : 2 ^ k * 2 ^ (w - k) = 2 ^ w := by
    rw [← pow_add]
    congr 1
    omega
  have h1 : 1 ≤ 2 ^ (w - k) := Nat.one_le_two_pow
  have e2 : 2 ^ k * (2 ^ (w - k) - 1) = 2 ^ k * 2 ^ (w - k) - 2 ^ k := by
    rw [Nat.mul_comm (2 ^ k) (2 ^ (w - k) - 1), Nat.sub_mul, one_mul, Nat.mul_comm]
  omega

theorem mask_compl {k w : Nat} (h : k ≤ w) :
    (2 ^ w - 1) ^^^ (2 ^ w - 2 ^ k) = 2 ^ k - 1 := by
  apply Nat.eq_of_testBit_eq
  intro i
  rw [Nat.testBit_xor, sub_pow_eq_mul k w h, Nat.testBit_mul_pow_two,
    Nat.testBit_two_pow_sub_one, Nat.testBit_two_pow_sub_one, Nat.testBit_two_pow_sub_one]
  by_cases hik : i < k
  · have h1 : i < w := by omega
    have h2 : ¬ (i ≥ k) := by omega
    simp [h1, h2, hik]
  · have h2 : i ≥ k := by omega
    have h3 : (i - k < w - k) = (i < w) := by
      apply propext
      omega
    simp [h2, h3, hik]

/-! ### Block-format arithmetic facts -/

theorem make_literal_eq_mod (v : Nat) : detail.make_literal v = v % 128 := by
  have h : (0x7F : Nat) = 2 ^ 7 - 1 := by norm_num
  unfold detail.make_literal
  rw [h, Nat.and_pow_two_sub_one_eq_mod]

theorem make_literal_lt (v : Nat) : detail.make_literal v < 128 := by
  rw [make_literal_eq_mod]
  exact Nat.mod_lt _ (by norm_num)

theorem make_literal_of_lt {v : Nat} (h : v < 128) : detail.make_literal v = v := by
  rw [make_literal_eq_mod, Nat.mod_eq_of_lt h]

theorem make_zeros_facts : ∀ c, c < 72 → 8 ≤ c →
    detail.brle8_mode (detail.make_zeros c) = detail.mode_zeros ∧
    detail.count (detail.make_zeros c) = c ∧
    detail.make_zeros c < 256 := by decide

theorem make_ones_facts : ∀ c, c < 72 → 8 ≤ c →
    detail.brle8_mode (detail.make_ones c) = detail.mode_ones ∧
    detail.count (detail.make_ones c) = c ∧
    detail.make_ones c < 256 := by decide

theorem literal_mode_facts : ∀ v, v < 128 →
    detail.brle8_mode v ≠ detail.mode_zeros ∧
    detail.brle8_mode v ≠ detail.mode_ones := by decide

theorem mode_zeros_ne_ones : detail.mode_zeros ≠ detail.mode_ones := by decide

theorem byte_mode_facts : ∀ b, b < 256 →
    (b < 128 → detail.brle8_mode b ≠ detail.mode_zeros ∧
               detail.brle8_mode b ≠ detail.mode_ones) ∧
    (128 ≤ b → b < 192 → detail.brle8_mode b = detail.mode_zeros ∧
               detail.count b = b - 120) ∧
    (192 ≤ b → detail.brle8_mode b = detail.mode_ones ∧
               detail.count b = b - 184) ∧
    8 ≤ detail.count b ∧ detail.count b ≤ 71 := by decide

theorem blockBits_literal {v : Nat} (h : v < 128) : blockBits v = natToBits 7 v := by
  unfold blockBits
  rcases literal_mode_facts v h with ⟨h1, h2⟩
  rw [if_neg h1, if_neg h2]

theorem blockBits_make_zeros {c : Nat} (h8 : 8 ≤ c) (h71 : c ≤ 71) :
    blockBits (detail.make_zeros c) =
      List.replicate c false ++ (if c < 71 then [true] else []) := by
  unfold blockBits
  rcases make_zeros_facts c (by omega) h8 with ⟨h1, h2, _⟩
  rw [if_pos h1, h2]
  simp only [detail.max_count]

theorem blockBits_make_ones {c : Nat} (h8 : 8 ≤ c) (h71 : c ≤ 71) :
    blockBits (detail.make_ones c) =
      List.replicate c true ++ (if c < 71 then [false] else []) := by
  unfold blockBits
  rcases make_ones_facts c (by omega) h8 with ⟨h1, h2, _⟩
  rw [if_neg (h1 ▸ mode_zeros_ne_ones.symm), if_pos h1, h2]
  simp only [detail.max_count]

@[simp] theorem blocksBits_nil : blocksBits [] = [] := rfl

@[simp] theorem blocksBits_cons (b : brle8) (bs : List brle8) :
    blocksBits (b :: bs) = blockBits b ++ blocksBits bs := by
  simp [blocksBits]

/-! ### Case equations for `encSpec` -/

theorem encSpec_init_def (r : Nat) (L : List Bool) :
    encSpec .init r L =
      if 7 < leadCount false L then encSpec .zeros 0 L
      else if 7 < leadCount true L then encSpec .ones 0 L
      else if L.isEmpty then []
      else detail.make_literal (bitsToNat (L.take 7)) :: encSpec .init 0 (L.drop 7) := by
  conv_lhs => rw [encSpec]

theorem encSpec_zeros_def (r : Nat) (L : List Bool) :
    encSpec .zeros r L =
      if 71 ≤ r + leadCount false L then
        detail.make_zeros 71 :: encSpec .init 0 (L.drop (min (71 - r) (leadCount false L)))
      else if (L.drop (leadCount false L)).isEmpty then
        [detail.make_zeros (r + leadCount false L)]
      else
        detail.make_zeros (r + leadCount false L) ::
          encSpec .init 0 (L.drop (leadCount false L + 1)) := by
  conv_lhs => rw [encSpec]

theorem encSpec_ones_def (r : Nat) (L : List Bool) :
    encSpec .ones r L =
      if 71 ≤ r + leadCount true L then
        detail.make_ones 71 :: encSpec .init 0 (L.drop (min (71 - r) (leadCount true L)))
      else if (L.drop (leadCount true L)).isEmpty then
        [detail.make_ones (r + leadCount true L)]
      else
        detail.make_ones (r + leadCount true L) ::
          encSpec .init 0 (L.drop (leadCount true L + 1)) := by
  conv_lhs => rw [encSpec]

@[simp] theorem encSpec_init_nil (r : Nat) : encSpec .init r [] = [] := by
  rw [encSpec_init_def]
  simp

theorem encSpec_init_enterZ {L : List Bool} (h : 7 < leadCount false L) (r : Nat) :
    encSpec .init r L = encSpec .zeros 0 L := by
  rw [encSpec_init_def, if_pos h]

theorem encSpec_init_enterO {L : List Bool} (hz : ¬ 7 < leadCount false L)
    (h : 7 < leadCount true L) (r : Nat) :
    encSpec .init r L = encSpec .ones 0 L := by
  rw [encSpec_init_def, if_neg hz, if_pos h]

theorem encSpec_init_literal {L : List Bool} (hz : ¬ 7 < leadCount false L)
    (ho : ¬ 7 < leadCount true L) (hne : ¬ L.isEmpty) (r : Nat) :
    encSpec .init r L
      = detail.make_literal (bitsToNat (L.take 7)) :: encSpec .init 0 (L.drop 7) := by
  rw [encSpec_init_def, if_neg hz, if_neg ho, if_neg hne]

theorem encSpec_zeros_big {r : Nat} {L : List Bool} (h : 71 ≤ r + leadCount false L) :
    encSpec .zeros r L
      = detail.make_zeros 71 :: encSpec .init 0 (L.drop (min (71 - r) (leadCount false L))) := by
  rw [encSpec_zeros_def, if_pos h]

theorem encSpec_zeros_end {r : Nat} {L : List Bool} (h : ¬ 71 ≤ r + leadCount false L)
    (h2 : (L.drop (leadCount false L)).isEmpty) :
    encSpec .zeros r L = [detail.make_zeros (r + leadCount false L)] := by
  rw [encSpec_zeros_def, if_neg h, if_pos h2]

theorem encSpec_zeros_emit {r : Nat} {L : List Bool} (h : ¬ 71 ≤ r + leadCount false L)
    (h2 : ¬ (L.drop (leadCount false L)).isEmpty) :
    encSpec .zeros r L
      = detail.make_zeros (r + leadCount false L) ::
          encSpec .init 0 (L.drop (leadCount false L + 1)) := by
  rw [encSpec_zeros_def, if_neg h, if_neg h2]

theorem encSpec_ones_big {r : Nat} {L : List Bool} (h : 71 ≤ r + leadCount true L) :
    encSpec .ones r L
      = detail.make_ones 71 :: encSpec .init 0 (L.drop (min (71 - r) (leadCount true L))) := by
  rw [encSpec_ones_def, if_pos h]

theorem encSpec_ones_end {r : Nat} {L : List Bool} (h : ¬ 71 ≤ r + leadCount true L)
    (h2 : (L.drop (leadCount true L)).isEmpty) :
    encSpec .ones r L = [detail.make_ones (r + leadCount true L)] := by
  rw [encSpec_ones_def, if_neg h, if_pos h2]

theorem encSpec_ones_emit {r : Nat} {L : List Bool} (h : ¬ 71 ≤ r + leadCount true L)
    (h2 : ¬ (L.drop (leadCount true L)).isEmpty) :
    encSpec .ones r L
      = detail.make_ones (r + leadCount true L) ::
          encSpec .init 0 (L.drop (leadCount true L + 1)) := by
  rw [encSpec_ones_def, if_neg h, if_neg h2]

/-! ### The run-slide lemma -/

theorem leadCount_drop {b : Bool} {l : List Bool} {c : Nat} (hc : c ≤ leadCount b l) :
    leadCount b (l.drop c) = leadCount b l - c := by
  induction c generalizing l with
  | zero => simp
  | succ c ih =>
    cases l with
    | nil => simp at hc
    | cons x l =>
      by_cases hx : x = b
      · subst hx
        simp only [leadCount_cons_self] at hc
        simp only [List.drop_succ_cons, leadCount_cons_self]
        rw [ih (by omega)]
        omega
      · simp [leadCount_cons_ne hx] at hc

/-- If the first `c` bits of `L` all equal the pending run bit and the total
stays within a block, sliding them from the stream into the pending counter
does not change the emitted blocks. -/
theorem encSpec_zeros_slide {r c : Nat} {L : List Bool}
    (hc : c ≤ leadCount false L) (hrc : r + c ≤ 71) :
    encSpec .zeros r L = encSpec .zeros (r + c) (L.drop c) := by
  have hz := leadCount_drop hc
  have hzl := leadCount_le_length false L
  rw [encSpec_zeros_def, encSpec_zeros_def, hz]
  have hcond : (71 ≤ r + leadCount false L) ↔ (71 ≤ r + c + (leadCount false L - c)) := by
    omega
  by_cases h1 : 71 ≤ r + leadCount false L
  · rw [if_pos h1, if_pos (hcond.mp h1)]
    have e : min (71 - r) (leadCount false L) = c + min (71 - (r + c)) (leadCount false L - c) := by
      omega
    rw [e, ← List.drop_drop]
  · rw [if_neg h1, if_neg (fun hh => h1 (hcond.mpr hh))]
    have e : leadCount false L - c + (r + c) = r + leadCount false L := by omega
    have e2 : (L.drop c).drop (leadCount false L - c) = L.drop (leadCount false L) := by
      rw [List.drop_drop]
      congr 1
      omega
    have e3 : (L.drop c).drop (leadCount false L - c + 1) = L.drop (leadCount false L + 1) := by
      rw [List.drop_drop]
      congr 1
      omega
    rw [e2, e3]
    have e4 : r + c + (leadCount false L - c) = r + leadCount false L := by omega
    rw [e4]

theorem encSpec_ones_slide {r c : Nat} {L : List Bool}
    (hc : c ≤ leadCount true L) (hrc : r + c ≤ 71) :
    encSpec .ones r L = encSpec .ones (r + c) (L.drop c) := by
  have hz := leadCount_drop hc
  have hzl := leadCount_le_length true L
  rw [encSpec_ones_def, encSpec_ones_def, hz]
  have hcond : (71 ≤ r + leadCount true L) ↔ (71 ≤ r + c + (leadCount true L - c)) := by
    omega
  by_cases h1 : 71 ≤ r + leadCount true L
  · rw [if_pos h1, if_pos (hcond.mp h1)]
    have e : min (71 - r) (leadCount true L) = c + min (71 - (r + c)) (leadCount true L - c) := by
      omega
    rw [e, ← List.drop_drop]
  · rw [if_neg h1, if_neg (fun hh => h1 (hcond.mpr hh))]
    have e2 : (L.drop c).drop (leadCount true L - c) = L.drop (leadCount true L) := by
      rw [List.drop_drop]
      congr 1
      omega
    have e3 : (L.drop c).drop (leadCount true L - c + 1) = L.drop (leadCount true L + 1) := by
      rw [List.drop_drop]
      congr 1
      omega
    rw [e2, e3]
    have e4 : r + c + (leadCount true L - c) = r + leadCount true L := by omega
    rw [e4]

/-! ### Bit content of the specification encoder's output -/

def stBits : encode_state → Nat → List Bool
  | .init, _ => []
  | .zeros, r => List.replicate r false
  | .ones, r => List.replicate r true

def specOk : encode_state → Nat → List Bool → Prop
  | .init, _, _ => True
  | .zeros, r, L => 8 ≤ r + leadCount false L ∧ r ≤ 70
  | .ones, r, L => 8 ≤ r + leadCount true L ∧ r ≤ 70

theorem natToBits_pad {l : List Bool} {w : Nat} (h : l.length ≤ w) :
    natToBits w (bitsToNat l) = l ++ List.replicate (w - l.length) false := by
  have h2 : (l ++ List.replicate (w - l.length) false).length = w := by
    simp
    omega
  calc natToBits w (bitsToNat l)
      = natToBits (l ++ List.replicate (w - l.length) false).length
          (bitsToNat (l ++ List.replicate (w - l.length) false)) := by
        rw [h2, bitsToNat_append_replicate_false]
    _ = l ++ List.replicate (w - l.length) false := natToBits_bitsToNat _

theorem replicate_merge (a b : Nat) (x : Bool) (t : List Bool) :
    List.replicate a x ++ (List.replicate b x ++ t) = List.replicate (a + b) x ++ t := by
  rw [List.replicate_add, List.append_assoc]

/-- The bit stream described by the blocks `encSpec st r L` emits is exactly
the pending run bits, then `L`, then at most 6 junk bits (literal padding or
a phantom terminator at end of stream). -/
theorem blocksBits_encSpec : ∀ st r L, specOk st r L →
    ∃ pad : List Bool,
      blocksBits (encSpec st r L) = stBits st r ++ L ++ pad ∧ pad.length ≤ 6 := by
  intro st r L
  induction st, r, L using encSpec.induct with
  | case1 x L h ih =>
    intro _
    rw [encSpec_init_enterZ h]
    rcases ih ⟨by omega, by omega⟩ with ⟨pad, hp, hl⟩
    refine ⟨pad, ?_, hl⟩
    rw [hp]
    simp [stBits]
  | case2 x L hz h ih =>
    intro _
    rw [encSpec_init_enterO hz h]
    rcases ih ⟨by omega, by omega⟩ with ⟨pad, hp, hl⟩
    refine ⟨pad, ?_, hl⟩
    rw [hp]
    simp [stBits]
  | case3 x L hz ho hemp =>
    intro _
    have hL : L = [] := List.isEmpty_iff.mp hemp
    subst hL
    refine ⟨[], ?_, by simp⟩
    simp [stBits]
  | case4 x L hz ho hemp ih =>
    intro _
    rw [encSpec_init_literal hz ho hemp, blocksBits_cons]
    have hv : bitsToNat (L.take 7) < 128 := by
      have h1 := bitsToNat_lt (L.take 7)
      have h2 : (L.take 7).length ≤ 7 := by simp
      have h3 : (2 : Nat) ^ (L.take 7).length ≤ 2 ^ 7 :=
        Nat.pow_le_pow_right (by norm_num) h2
      omega
    rw [make_literal_of_lt hv, blockBits_literal hv]
    rcases ih trivial with ⟨pad, hp, hl⟩
    by_cases hlen : 7 ≤ L.length
    · have htl : (L.take 7).length = 7 := by simp; omega
      have hnb := natToBits_bitsToNat (L.take 7)
      rw [htl] at hnb
      rw [hnb, hp]
      refine ⟨pad, ?_, hl⟩
      simp [stBits, ← List.append_assoc]
    · have htk : L.take 7 = L := List.take_of_length_le (by omega)
      have hdr : L.drop 7 = [] := List.drop_eq_nil_of_le (by omega)
      have hLne : L ≠ [] := by
        intro hcon
        rw [hcon] at hemp
        simp at hemp
      have hL1 : 1 ≤ L.length := by
        cases L
        · simp at hLne
        · simp
      rw [htk, hdr, natToBits_pad (by omega)]
      refine ⟨List.replicate (7 - L.length) false, ?_, by simp; omega⟩
      simp [stBits]
  | case5 r L h ih =>
    intro hok
    obtain ⟨h8, h70⟩ : 8 ≤ r + leadCount false L ∧ r ≤ 70 := hok
    have hz := leadCount_le_length false L
    rw [encSpec_zeros_big h, blocksBits_cons,
      blockBits_make_zeros (by omega) (by omega), if_neg (by omega)]
    rcases ih trivial with ⟨pad, hp, hl⟩
    refine ⟨pad, ?_, hl⟩
    rw [hp]
    have hmin : min (71 - r) (leadCount false L) = 71 - r := by omega
    rw [hmin]
    have htake : L.take (71 - r) = List.replicate (71 - r) false :=
      take_eq_replicate_of_le_leadCount (by omega)
    conv_rhs => rw [← List.take_append_drop (71 - r) L, htake]
    simp only [stBits, List.append_assoc, List.append_nil, List.nil_append]
    conv_rhs => rw [replicate_merge]
    congr 2
    omega
  | case6 r L h hemp =>
    intro hok
    obtain ⟨h8, h70⟩ : 8 ≤ r + leadCount false L ∧ r ≤ 70 := hok
    have hz := leadCount_le_length false L
    have hlen : L.length ≤ leadCount false L := by
      have := List.drop_eq_nil_iff.mp (List.isEmpty_iff.mp hemp)
      omega
    have hL : L = List.replicate (leadCount false L) false := by
      have h5 : L.take (leadCount false L) = List.replicate (leadCount false L) false :=
        take_eq_replicate_of_le_leadCount (le_refl _)
      rwa [List.take_of_length_le hlen] at h5
    rw [encSpec_zeros_end h hemp, blocksBits_cons,
      blockBits_make_zeros (by omega) (by omega), if_pos (by omega)]
    refine ⟨[true], ?_, by simp⟩
    conv_rhs => rw [hL]
    simp only [stBits, blocksBits_nil, List.append_assoc, List.append_nil,
      List.nil_append]
    conv_rhs => rw [replicate_merge]
  | case7 r L h hemp ih =>
    intro hok
    obtain ⟨h8, h70⟩ : 8 ≤ r + leadCount false L ∧ r ≤ 70 := hok
    have hz := leadCount_le_length false L
    have hlt : leadCount false L < L.length := by
      by_contra hcon
      have hnil : L.drop (leadCount false L) = [] := List.drop_eq_nil_of_le (by omega)
      rw [hnil] at hemp
      simp at hemp
    obtain ⟨t, ht⟩ := drop_leadCount_head hlt
    have htt : t = L.drop (leadCount false L + 1) := by
      have h6 : L.drop (leadCount false L + 1) = (L.drop (leadCount false L)).drop 1 := by
        rw [List.drop_drop]
      rw [h6, ht]
      simp
    rw [encSpec_zeros_emit h hemp, blocksBits_cons,
      blockBits_make_zeros (by omega) (by omega), if_pos (by omega)]
    rcases ih trivial with ⟨pad, hp, hl⟩
    refine ⟨pad, ?_, hl⟩
    rw [hp, ← htt]
    conv_rhs => rw [← List.take_append_drop (leadCount false L) L,
      take_eq_replicate_of_le_leadCount (le_refl _), ht]
    simp only [stBits, List.append_assoc, List.nil_append, List.cons_append,
      List.singleton_append, Bool.not_false]
    conv_rhs => rw [replicate_merge]
  | case8 r L h ih =>
    intro hok
    obtain ⟨h8, h70⟩ : 8 ≤ r + leadCount true L ∧ r ≤ 70 := hok
    have hz := leadCount_le_length true L
    rw [encSpec_ones_big h, blocksBits_cons,
      blockBits_make_ones (by omega) (by omega), if_neg (by omega)]
    rcases ih trivial with ⟨pad, hp, hl⟩
    refine ⟨pad, ?_, hl⟩
    rw [hp]
    have hmin : min (71 - r) (leadCount true L) = 71 - r := by omega
    rw [hmin]
    have htake : L.take (71 - r) = List.replicate (71 - r) true :=
      take_eq_replicate_of_le_leadCount (by omega)
    conv_rhs => rw [← List.take_append_drop (71 - r) L, htake]
    simp only [stBits, List.append_assoc, List.append_nil, List.nil_append]
    conv_rhs => rw [replicate_merge]
    congr 2
    omega
  | case9 r L h hemp =>
    intro hok
    obtain ⟨h8, h70⟩ : 8 ≤ r + leadCount true L ∧ r ≤ 70 := hok
    have hz := leadCount_le_length true L
    have hlen : L.length ≤ leadCount true L := by
      have := List.drop_eq_nil_iff.mp (List.isEmpty_iff.mp hemp)
      omega
    have hL : L = List.replicate (leadCount true L) true := by
      have h5 : L.take (leadCount true L) = List.replicate (leadCount true L) true :=
        take_eq_replicate_of_le_leadCount (le_refl _)
      rwa [List.take_of_length_le hlen] at h5
    rw [encSpec_ones_end h hemp, blocksBits_cons,
      blockBits_make_ones (by omega) (by omega), if_pos (by omega)]
    refine ⟨[false], ?_, by simp⟩
    conv_rhs => rw [hL]
    simp only [stBits, blocksBits_nil, List.append_assoc, List.append_nil,
      List.nil_append]
    conv_rhs => rw [replicate_merge]
  | case10 r L h hemp ih =>
    intro hok
    obtain ⟨h8, h70⟩ : 8 ≤ r + leadCount true L ∧ r ≤ 70 := hok
    have hz := leadCount_le_length true L
    have hlt : leadCount true L < L.length := by
      by_contra hcon
      have hnil : L.drop (leadCount true L) = [] := List.drop_eq_nil_of_le (by omega)
      rw [hnil] at hemp
      simp at hemp
    obtain ⟨t, ht⟩ := drop_leadCount_head hlt
    have htt : t = L.drop (leadCount true L + 1) := by
      have h6 : L.drop (leadCount true L + 1) = (L.drop (leadCount true L)).drop 1 := by
        rw [List.drop_drop]
      rw [h6, ht]
      simp
    rw [encSpec_ones_emit h hemp, blocksBits_cons,
      blockBits_make_ones (by omega) (by omega), if_pos (by omega)]
    rcases ih trivial with ⟨pad, hp, hl⟩
    refine ⟨pad, ?_, hl⟩
    rw [hp, ← htt]
    conv_rhs => rw [← List.take_append_drop (leadCount true L) L,
      take_eq_replicate_of_le_leadCount (le_refl _), ht]
    simp only [stBits, List.append_assoc, List.nil_append, List.cons_append,
      List.singleton_append, Bool.not_true]
    conv_rhs => rw [replicate_merge]

/-! ### Simulation: one drain step of the machine encoder -/

def stateOk (e : encoder) : Prop :=
  (e.state = .init → e.rlen = 0) ∧ (e.state ≠ .init → 8 ≤ e.rlen ∧ e.rlen ≤ 70)

theorem leadCount_le_append (b : Bool) (l r : List Bool) :
    leadCount b l ≤ leadCount b (l ++ r) := by
  induction l with
  | nil => simp
  | cons x l ih =>
    by_cases hx : x = b
    · subst hx
      simp only [List.cons_append, leadCount_cons_self]
      omega
    · simp [leadCount_cons_ne hx]

/-- One call of the private `encoder::push( data, zeros, ones )` from a sound
state, with `zeros`/`ones` counts that under-approximate the leading runs of
the remaining logical bits `L`, consumes `c ≥ 1` bits and leaves the overall
emitted block stream unchanged (as a function of the remaining bits). -/
theorem drain_step (w : Nat) (hw8 : 8 ≤ w) {e e' : encoder} {c : Nat}
    {L R : List Bool} {sb z o : Nat}
    (hst : stateOk e)
    (hsb : sb % 128 = bitsToNat (L.take 7))
    (hz_le : z ≤ leadCount false L) (hz70 : z ≤ 70)
    (ho_le : o ≤ leadCount true L) (ho70 : o ≤ 70)
    (hz0 : z = 0 → leadCount false L = 0)
    (ho0 : o = 0 → leadCount true L = 0)
    (hz7 : ¬ 7 < z → leadCount false L ≤ 7)
    (ho7 : ¬ 7 < o → leadCount true L ≤ 7)
    (hlit : e.state = .init → ¬ 7 < z → ¬ 7 < o → 7 ≤ L.length)
    (hR : R ≠ [] → w ≤ L.length)
    (hstep : enc_push_step e sb z o = (e', c)) :
    stateOk e' ∧ 1 ≤ c ∧ c ≤ max (max z o) 7 ∧
      e'.buffer = e.buffer ∧ e'.buffer_size = e.buffer_size ∧
      (c ≤ L.length ∨ (c = 1 ∧ L = [] ∧ e'.state = .init)) ∧
      e'.output ++ encSpec e'.state e'.rlen (L.drop c ++ R)
        = e.output ++ encSpec e.state e.rlen (L ++ R) := by
  have hzL := leadCount_le_length false L
  have hoL := leadCount_le_length true L
  have hzlR := leadCount_le_append false L R
  have holR := leadCount_le_append true L R
  obtain ⟨out, buf, bsize, st, rlen⟩ := e
  obtain ⟨hia, hib⟩ := hst
  cases st with
  | init =>
    have hrlen : rlen = 0 := hia rfl
    subst hrlen
    simp only [enc_push_step, detail.literal_size] at hstep
    by_cases h1 : 7 < z
    · rw [if_pos h1] at hstep
      injection hstep with he hc
      subst he
      subst hc
      have h7z : 7 < z := h1
      have hlf : 7 < leadCount false (L ++ R) := by omega
      refine ⟨⟨by simp, by simp; omega⟩, by omega, by omega, rfl, rfl, by omega, ?_⟩
      rw [encSpec_init_enterZ hlf, encSpec_zeros_slide (r := 0) (c := z) (by omega) (by omega),
        List.drop_append_of_le_length (by omega)]
      simp
    · rw [if_neg h1] at hstep
      by_cases h2 : 7 < o
      · rw [if_pos h2] at hstep
        injection hstep with he hc
        subst he
        subst hc
        have h7o : 7 < o := h2
        have hlf7 : leadCount false L ≤ 7 := hz7 h1
        have hlo : 7 < leadCount true (L ++ R) := by omega
        have hlfR : ¬ 7 < leadCount false (L ++ R) := by
          by_cases hRe : R = []
          · subst hRe
            simp
            omega
          · have hwL := hR hRe
            rw [leadCount_append_left _ (by omega)]
            omega
        refine ⟨⟨by simp, by simp; omega⟩, by omega, by omega, rfl, rfl, by omega, ?_⟩
        rw [encSpec_init_enterO hlfR hlo,
          encSpec_ones_slide (r := 0) (c := o) (by omega) (by omega),
          List.drop_append_of_le_length (by omega)]
        simp
      · rw [if_neg h2] at hstep
        injection hstep with he hc
        subst he
        subst hc
        have h7L : 7 ≤ L.length := hlit rfl h1 h2
        have hlf7 : leadCount false L ≤ 7 := hz7 h1
        have hlo7 : leadCount true L ≤ 7 := ho7 h2
        have hlfR : ¬ 7 < leadCount false (L ++ R) := by
          by_cases hRe : R = []
          · subst hRe
            simp
            omega
          · have hwL := hR hRe
            rw [leadCount_append_left _ (by omega)]
            omega
        have hloR : ¬ 7 < leadCount true (L ++ R) := by
          by_cases hRe : R = []
          · subst hRe
            simp
            omega
          · have hwL := hR hRe
            rw [leadCount_append_left _ (by omega)]
            omega
        have hne : ¬ (L ++ R).isEmpty := by
          cases L
          · simp at h7L
          · simp
        refine ⟨⟨by simp, by simp⟩, by omega, by omega,
          rfl, rfl, by omega, ?_⟩
        rw [encSpec_init_literal hlfR hloR hne,
          List.take_append_of_le_length h7L, List.drop_append_of_le_length h7L]
        have hv : bitsToNat (L.take 7) < 128 := by
          have hb1 := bitsToNat_lt (L.take 7)
          have hb2 : (L.take 7).length = 7 := by simp; omega
          rw [hb2] at hb1
          exact hb1
        have hmk : detail.make_literal sb = detail.make_literal (bitsToNat (L.take 7)) := by
          rw [make_literal_eq_mod, make_literal_eq_mod, hsb, Nat.mod_eq_of_lt hv]
        rw [hmk]
        simp
  | zeros =>
    obtain ⟨hr8, hr70⟩ : 8 ≤ rlen ∧ rlen ≤ 70 := hib (by simp)
    simp only [enc_push_step] at hstep
    by_cases h1 : 0 < z
    · rw [if_pos h1] at hstep
      simp only [detail.max_count] at hstep
      by_cases h2 : rlen + min (71 - rlen) z = 71
      · rw [if_pos h2] at hstep
        injection hstep with he hc
        subst he
        subst hc
        have hmin : min (71 - rlen) z = 71 - rlen := by omega
        rw [hmin]
        have hcz : 71 - rlen ≤ z := by omega
        have hbig : 71 ≤ rlen + leadCount false (L ++ R) := by omega
        refine ⟨⟨by simp, by simp⟩, by omega, by omega, rfl, rfl, by omega, ?_⟩
        rw [encSpec_zeros_big hbig]
        have hminR : min (71 - rlen) (leadCount false (L ++ R)) = 71 - rlen := by omega
        rw [hminR, List.drop_append_of_le_length (by omega)]
        simp [detail.max_count]
      · rw [if_neg h2] at hstep
        injection hstep with he hc
        subst he
        subst hc
        have hmin : min (71 - rlen) z = z := by omega
        rw [hmin]
        have hr71 : rlen + z < 71 := by omega
        refine ⟨⟨by simp, by simp; omega⟩, by omega, by omega, rfl, rfl, by omega, ?_⟩
        rw [encSpec_zeros_slide (r := rlen) (c := z) (by omega) (by omega),
          List.drop_append_of_le_length (by omega)]
    · rw [if_neg h1] at hstep
      injection hstep with he hc
      subst he
      subst hc
      have hz' : z = 0 := by omega
      have hlf0 : leadCount false L = 0 := hz0 hz'
      by_cases hLe : L = []
      · subst hLe
        have hRe : R = [] := by
          by_contra hcon
          have := hR hcon
          simp at this
          omega
        subst hRe
        refine ⟨⟨by simp, by simp⟩, by omega, by omega, rfl, rfl, ?_, ?_⟩
        · right
          exact ⟨rfl, rfl, rfl⟩
        · rw [encSpec_zeros_end (by dsimp only; simp; omega) (by simp)]
          simp
      · have hL1 : 1 ≤ L.length := by
          cases L
          · simp at hLe
          · simp
        obtain ⟨t, ht⟩ := drop_leadCount_head (l := L) (b := false) (by omega)
        rw [hlf0] at ht
        simp only [List.drop_zero, Bool.not_false] at ht
        have hlfR : leadCount false (L ++ R) = 0 := by
          rw [ht]
          simp [leadCount_cons_ne]
        have hne71 : ¬ 71 ≤ rlen + leadCount false (L ++ R) := by omega
        refine ⟨⟨by simp, by simp⟩, by omega, by omega, rfl, rfl, by omega, ?_⟩
        rw [encSpec_zeros_emit hne71 ?hemp]
        case hemp =>
          rw [hlfR]
          rw [ht]
          simp
        rw [hlfR, List.drop_append_of_le_length (by omega)]
        simp
  | ones =>
    obtain ⟨hr8, hr70⟩ : 8 ≤ rlen ∧ rlen ≤ 70 := hib (by simp)
    simp only [enc_push_step] at hstep
    by_cases h1 : 0 < o
    · rw [if_pos h1] at hstep
      simp only [detail.max_count] at hstep
      by_cases h2 : rlen + min (71 - rlen) o = 71
      · rw [if_pos h2] at hstep
        injection hstep with he hc
        subst he
        subst hc
        have hmin : min (71 - rlen) o = 71 - rlen := by omega
        rw [hmin]
        have hco : 71 - rlen ≤ o := by omega
        have hbig : 71 ≤ rlen + leadCount true (L ++ R) := by omega
        refine ⟨⟨by simp, by simp⟩, by omega, by omega, rfl, rfl, by omega, ?_⟩
        rw [encSpec_ones_big hbig]
        have hminR : min (71 - rlen) (leadCount true (L ++ R)) = 71 - rlen := by omega
        rw [hminR, List.drop_append_of_le_length (by omega)]
        simp [detail.max_count]
      · rw [if_neg h2] at hstep
        injection hstep with he hc
        subst he
        subst hc
        have hmin : min (71 - rlen) o = o := by omega
        rw [hmin]
        have hr71 : rlen + o < 71 := by omega
        refine ⟨⟨by simp, by simp; omega⟩, by omega, by omega, rfl, rfl, by omega, ?_⟩
        rw [encSpec_ones_slide (r := rlen) (c := o) (by omega) (by omega),
          List.drop_append_of_le_length (by omega)]
    · rw [if_neg h1] at hstep
      injection hstep with he hc
      subst he
      subst hc
      have ho' : o = 0 := by omega
      have hlo0 : leadCount true L = 0 := ho0 ho'
      by_cases hLe : L = []
      · subst hLe
        have hRe : R = [] := by
          by_contra hcon
          have := hR hcon
          simp at this
          omega
        subst hRe
        refine ⟨⟨by simp, by simp⟩, by omega, by omega, rfl, rfl, ?_, ?_⟩
        · right
          exact ⟨rfl, rfl, rfl⟩
        · rw [encSpec_ones_end (by dsimp only; simp; omega) (by simp)]
          simp
      · have hL1 : 1 ≤ L.length := by
          cases L
          · simp at hLe
          · simp
        obtain ⟨t, ht⟩ := drop_leadCount_head (l := L) (b := true) (by omega)
        rw [hlo0] at ht
        simp only [List.drop_zero, Bool.not_true] at ht
        have hloR : leadCount true (L ++ R) = 0 := by
          rw [ht]
          simp [leadCount_cons_ne]
        have hne71 : ¬ 71 ≤ rlen + leadCount true (L ++ R) := by omega
        refine ⟨⟨by simp, by simp⟩, by omega, by omega, rfl, rfl, by omega, ?_⟩
        rw [encSpec_ones_emit hne71 ?hemp]
        case hemp =>
          rw [hloR]
          rw [ht]
          simp
        rw [hloR, List.drop_append_of_le_length (by omega)]
        simp

/-! ### The public push loop -/

theorem countr_zero_take (w : Nat) {L : List Bool} (h : w ≤ L.length) :
    detail.countr_zero w (bitsToNat (L.take w)) = min (leadCount false L) w := by
  have hl : (L.take w).length = w := by simp; omega
  have hnb := natToBits_bitsToNat (L.take w)
  rw [hl] at hnb
  rw [countr_zero_eq_leadCount, hnb, leadCount_take]

theorem countr_one_take (w : Nat) {L : List Bool} (h : w ≤ L.length) :
    detail.countr_one w (bitsToNat (L.take w)) = min (leadCount true L) w := by
  have hl : (L.take w).length = w := by simp; omega
  have hnb := natToBits_bitsToNat (L.take w)
  rw [hl] at hnb
  rw [countr_one_eq_leadCount, hnb, leadCount_take]

theorem bitsToNat_take_mod (L : List Bool) {k w : Nat} (h : k ≤ w) :
    bitsToNat (L.take w) % 2 ^ k = bitsToNat (L.take k) := by
  rw [← bitsToNat_take, List.take_take]
  have hmin : min k w = k := by omega
  rw [hmin]

/-- The register re-or trick of `encoder::push`: or-ing the (possibly
truncated) data word back in at offset `p` recovers the low `w` bits of the
remaining logical stream. -/
theorem reg_or_data {w p m data : Nat} {Lcur : List Bool}
    (hd : data < 2 ^ w) (hpm : p ≤ m) (hpw : p ≤ w) (hmw : m ≤ w)
    (hmL : m ≤ Lcur.length)
    (hsuffix : Lcur.drop p = natToBits w data) :
    bitsToNat (Lcur.take m) ||| ((data <<< p) % 2 ^ w) = bitsToNat (Lcur.take w) := by
  have hlenL : Lcur.length = p + w := by
    have h1 := congrArg List.length hsuffix
    simp only [List.length_drop, length_natToBits] at h1
    omega
  have hdS : bitsToNat (natToBits w data) = data := bitsToNat_natToBits_of_lt hd
  have hmod : (data <<< p) % 2 ^ w = (bitsToNat ((natToBits w data).take (w - p))) <<< p := by
    rw [Nat.shiftLeft_eq, Nat.shiftLeft_eq, bitsToNat_take, hdS]
    have hsplit : (2 : Nat) ^ w = 2 ^ (w - p) * 2 ^ p := by
      rw [← pow_add]
      congr 1
      omega
    rw [hsplit, Nat.mul_mod_mul_right]
  rw [hmod]
  have hpA : p ≤ (Lcur.take m).length := by simp; omega
  have hsub : (Lcur.take m).drop p <+: (natToBits w data).take (w - p) := by
    rw [List.drop_take, hsuffix]
    exact List.take_prefix_take_left _ (by omega)
  rw [bitsToNat_lor_overlay (Lcur.take m) _ p hpA hsub]
  congr 1
  rw [List.take_take]
  have hminpm : min p m = p := by omega
  rw [hminpm]
  conv_rhs => rw [← List.take_append_drop p Lcur, hsuffix]
  rw [List.take_append_eq_append_take]
  congr 1
  · rw [List.take_take]
    congr 1
    omega
  · congr 1
    simp [List.length_take]
    omega

theorem enc_push_loop_succ (w data fuel : Nat) (e : encoder) (sb : Nat) (bits : Int) :
    enc_push_loop w data (fuel + 1) e sb bits =
      (fun sb1 =>
        (fun step =>
          if (w : Int) ≤ bits - (step.2 : Int) + (w : Int) then
            enc_push_loop w data fuel step.1 (sb1 >>> step.2) (bits - (step.2 : Int))
          else (step.1, sb1 >>> step.2, bits - (step.2 : Int)))
        (enc_push_step e sb1 (detail.countr_zero w sb1) (detail.countr_one w sb1)))
      (sb ||| ((data <<< bits.toNat) % 2 ^ w)) := rfl

/-- Correctness of the do/while loop of `encoder::push`: it drains whole
drain steps until fewer than zero fresh bits remain, preserving the
state-machine invariant and the emitted block stream. -/
theorem enc_push_loop_spec (w data : Nat) (hw8 : 8 ≤ w) (hw64 : w ≤ 64)
    (hd : data < 2 ^ w) :
    ∀ (fuel : Nat) (e : encoder) (sb : Nat) (bits : Int) (Lcur : List Bool) (m : Nat),
      stateOk e → 0 ≤ bits → bits < (w : Int) →
      bits.toNat ≤ m → m ≤ w → m ≤ Lcur.length →
      sb = bitsToNat (Lcur.take m) →
      Lcur.drop bits.toNat = natToBits w data →
      bits < (fuel : Int) →
      ∃ (e₂ : encoder) (sb₂ : Nat) (bits₂ : Int) (c : Nat),
        enc_push_loop w data fuel e sb bits = (e₂, sb₂, bits₂) ∧
        stateOk e₂ ∧ bits₂ < 0 ∧ -(w : Int) ≤ bits₂ ∧
        (c : Int) = bits - bits₂ ∧ c ≤ Lcur.length ∧
        bitsToNat (Lcur.drop c) = data >>> (-bits₂).toNat ∧
        ((Lcur.drop c).length : Int) = bits₂ + (w : Int) ∧
        ∀ Rf, e₂.output ++ encSpec e₂.state e₂.rlen (Lcur.drop c ++ Rf)
            = e.output ++ encSpec e.state e.rlen (Lcur ++ Rf) := by
  intro fuel
  induction fuel with
  | zero =>
    intro e sb bits Lcur m _ hb0 _ _ _ _ _ _ hfuel
    exact absurd hfuel (by omega)
  | succ fuel ih =>
    intro e sb bits Lcur m hst hb0 hbw hm1 hmw hm2 hsb hsuf hfuel
    have hlenL : Lcur.length = bits.toNat + w := by
      have h1 := congrArg List.length hsuf
      simp only [List.length_drop, length_natToBits] at h1
      omega
    have hwL : w ≤ Lcur.length := by omega
    have hsb1 : sb ||| ((data <<< bits.toNat) % 2 ^ w) = bitsToNat (Lcur.take w) := by
      rw [hsb]
      exact reg_or_data hd hm1 (by omega) hmw hm2 hsuf
    have hz := countr_zero_take w hwL
    have ho := countr_one_take w hwL
    have hzL := leadCount_le_length false Lcur
    have hoL := leadCount_le_length true Lcur
    rcases hsp : enc_push_step e (bitsToNat (Lcur.take w))
        (detail.countr_zero w (bitsToNat (Lcur.take w)))
        (detail.countr_one w (bitsToNat (Lcur.take w))) with ⟨e', c'⟩
    have hdr : ∀ Rf : List Bool,
        stateOk e' ∧ 1 ≤ c' ∧
          c' ≤ max (max (detail.countr_zero w (bitsToNat (Lcur.take w)))
            (detail.countr_one w (bitsToNat (Lcur.take w)))) 7 ∧
          e'.buffer = e.buffer ∧ e'.buffer_size = e.buffer_size ∧
          (c' ≤ Lcur.length ∨ (c' = 1 ∧ Lcur = [] ∧ e'.state = .init)) ∧
          e'.output ++ encSpec e'.state e'.rlen (Lcur.drop c' ++ Rf)
            = e.output ++ encSpec e.state e.rlen (Lcur ++ Rf) := by
      intro Rf
      refine drain_step (z := detail.countr_zero w (bitsToNat (Lcur.take w)))
        (o := detail.countr_one w (bitsToNat (Lcur.take w)))
        (L := Lcur) (R := Rf) w hw8 hst ?_ ?_ ?_ ?_ ?_ ?_ ?_ ?_ ?_ ?_ ?_ hsp
      · exact bitsToNat_take_mod (k := 7) (w := w) Lcur (by omega)
      · rw [hz]; omega
      · rw [hz]; omega
      · rw [ho]; omega
      · rw [ho]; omega
      · rw [hz]; omega
      · rw [ho]; omega
      · rw [hz]; omega
      · rw [ho]; omega
      · intro _ _ _
        omega
      · intro _
        omega
    obtain ⟨hst', hc1, hcmax, hbuf', hbsz', hcL, heq0⟩ := hdr []
    have hc'w : c' ≤ w := by
      rw [hz, ho] at hcmax
      omega
    have hc'L : c' ≤ Lcur.length := by
      rcases hcL with h | ⟨_, hnil, _⟩
      · exact h
      · rw [hnil] at hlenL
        simp at hlenL
        omega
    rw [enc_push_loop_succ]
    simp only [hsb1, hsp]
    by_cases hcont : (w : Int) ≤ bits - (c' : Int) + (w : Int)
    · rw [if_pos hcont]
      have hcb : (c' : Int) ≤ bits := by omega
      have hrec := ih e' (bitsToNat (Lcur.take w) >>> c') (bits - (c' : Int))
        (Lcur.drop c') (w - c') hst' (by omega) (by omega)
        (by omega) (by omega)
        (by simp [List.length_drop]; omega)
        (by rw [shiftRight_bitsToNat, List.drop_take])
        (by
          rw [List.drop_drop]
          have hcc : c' + (bits - (c' : Int)).toNat = bits.toNat := by omega
          rw [hcc, hsuf])
        (by omega)
      obtain ⟨e₂, sb₂, bits₂, crec, heq, hst₂, hneg, hlow, hcrec, hcrecL, hbufrel,
        hlenrel, hspec⟩ := hrec
      refine ⟨e₂, sb₂, bits₂, c' + crec, heq, hst₂, hneg, hlow, by omega, ?_, ?_, ?_, ?_⟩
      · simp only [List.length_drop] at hcrecL
        omega
      · rw [← List.drop_drop]
        exact hbufrel
      · rw [← List.drop_drop]
        exact hlenrel
      · intro Rf
        rw [← List.drop_drop]
        calc e₂.output ++ encSpec e₂.state e₂.rlen ((Lcur.drop c').drop crec ++ Rf)
            = e'.output ++ encSpec e'.state e'.rlen (Lcur.drop c' ++ Rf) := hspec Rf
          _ = e.output ++ encSpec e.state e.rlen (Lcur ++ Rf) := (hdr Rf).2.2.2.2.2.2
    · rw [if_neg hcont]
      refine ⟨e', bitsToNat (Lcur.take w) >>> c', bits - (c' : Int), c', rfl, hst',
        by omega, by omega, by omega, hc'L, ?_, ?_, ?_⟩
      · have hdd : Lcur.drop c' = (natToBits w data).drop (c' - bits.toNat) := by
          rw [← hsuf, List.drop_drop]
          congr 1
          omega
        rw [hdd, ← shiftRight_bitsToNat, bitsToNat_natToBits_of_lt hd]
        congr 1
        omega
      · simp only [List.length_drop]
        omega
      · intro Rf
        exact (hdr Rf).2.2.2.2.2.2

/-! ### Correctness of the public `encoder::push` -/

/-- Well-formedness of a machine encoder state: the carry register holds
exactly the bits `bl` (fewer than one word's worth), and the run-state
bookkeeping is sound. -/
def EncRel (w : Nat) (e : encoder) (bl : List Bool) : Prop :=
  e.buffer = bitsToNat bl ∧ e.buffer_size = (bl.length : Int) ∧
    bl.length < w ∧ stateOk e

theorem encSpec_init_rlen (r r' : Nat) (L : List Bool) :
    encSpec .init r L = encSpec .init r' L := by
  conv_lhs => rw [encSpec_init_def]
  conv_rhs => rw [encSpec_init_def]

theorem push_spec (w : Nat) (hw8 : 8 ≤ w) (hw64 : w ≤ 64) {data : Nat}
    (hd : data < 2 ^ w) {e : encoder} {bl : List Bool} (h : EncRel w e bl) :
    ∃ bl', EncRel w (e.push w data) bl' ∧
      ∀ Rf, (e.push w data).output
          ++ encSpec (e.push w data).state (e.push w data).rlen (bl' ++ Rf)
        = e.output ++ encSpec e.state e.rlen (bl ++ (natToBits w data ++ Rf)) := by
  obtain ⟨hbuf, hbsz, hblw, hst⟩ := h
  have hloop := enc_push_loop_spec w data hw8 hw64 hd (w + 1) e e.buffer e.buffer_size
    (bl ++ natToBits w data) bl.length hst (by omega) (by omega)
    (by omega) (by omega) (by simp)
    (by rw [hbuf, List.take_append_of_le_length (le_refl _), List.take_of_length_le (le_refl _)])
    (by
      have h1 : (e.buffer_size).toNat = bl.length := by rw [hbsz]; omega
      rw [h1, List.drop_append_of_le_length (le_refl _)]
      simp)
    (by omega)
  obtain ⟨e₂, sb₂, bits₂, c, heq, hst₂, hneg, hlow, hcval, hcle, hbufrel, hlenrel, hspec⟩ :=
    hloop
  have hpush : e.push w data =
      { e₂ with buffer := data >>> (-bits₂).toNat, buffer_size := bits₂ + (w : Int) } := by
    unfold encoder.push
    rw [heq]
    simp only []
    rw [if_neg (by omega)]
  refine ⟨(bl ++ natToBits w data).drop c, ⟨?_, ?_, ?_, ?_⟩, ?_⟩
  · rw [hpush]
    exact hbufrel.symm
  · rw [hpush]
    simp only []
    omega
  · omega
  · rw [hpush]
    exact hst₂
  · intro Rf
    rw [hpush]
    simp only []
    rw [← List.append_assoc]
    exact hspec Rf

theorem fold_push_spec (w : Nat) (hw8 : 8 ≤ w) (hw64 : w ≤ 64) :
    ∀ (ws : List Nat) (e : encoder) (bl : List Bool), EncRel w e bl →
      (∀ x ∈ ws, x < 2 ^ w) →
      ∃ bl', EncRel w (ws.foldl (fun a d => a.push w d) e) bl' ∧
        ∀ Rf, (ws.foldl (fun a d => a.push w d) e).output
            ++ encSpec (ws.foldl (fun a d => a.push w d) e).state
                 (ws.foldl (fun a d => a.push w d) e).rlen (bl' ++ Rf)
          = e.output ++ encSpec e.state e.rlen (bl ++ (wordsToBits w ws ++ Rf)) := by
  intro ws
  induction ws with
  | nil =>
    intro e bl h _
    exact ⟨bl, h, fun Rf => by simp [wordsToBits]⟩
  | cons d ws ih =>
    intro e bl h hws
    obtain ⟨bl₁, h₁, hspec₁⟩ := push_spec w hw8 hw64 (hws d (by simp)) h
    obtain ⟨bl₂, h₂, hspec₂⟩ := ih (e.push w d) bl₁ h₁ (fun x hx => hws x (by simp [hx]))
    refine ⟨bl₂, by simpa using h₂, ?_⟩
    intro Rf
    have e1 := hspec₂ Rf
    have e2 := hspec₁ (wordsToBits w ws ++ Rf)
    simp only [List.foldl_cons] at *
    rw [e1, e2]
    have : wordsToBits w (d :: ws) = natToBits w d ++ wordsToBits w ws := by
      simp [wordsToBits]
    rw [this]
    simp [List.append_assoc]

/-! ### Correctness of `encoder::flush` -/

theorem leadCount_append_full {b : Bool} {l : List Bool} (r : List Bool)
    (h : leadCount b l = l.length) :
    leadCount b (l ++ r) = l.length + leadCount b r := by
  induction l with
  | nil => simp
  | cons x l ih =>
    by_cases hx : x = b
    · subst hx
      simp only [leadCount_cons_self, List.length_cons] at h
      simp only [List.cons_append, leadCount_cons_self, List.length_cons, ih (by omega)]
      omega
    · simp [leadCount_cons_ne hx] at h

theorem leadCount_replicate_self (b : Bool) (k : Nat) :
    leadCount b (List.replicate k b) = k := by
  induction k with
  | zero => simp
  | succ k ih => simp [List.replicate_succ, ih]

theorem countr_zero_partial {w : Nat} {L : List Bool} (h : L.length ≤ w) :
    min (detail.countr_zero w (bitsToNat L)) L.length = leadCount false L := by
  have hz := countr_zero_eq_leadCount w (bitsToNat L)
  rw [natToBits_pad h] at hz
  have hle := leadCount_le_length false L
  by_cases hfull : leadCount false L < L.length
  · rw [leadCount_append_left _ hfull] at hz
    omega
  · have hLfull : leadCount false L = L.length := by omega
    rw [leadCount_append_full _ hLfull, leadCount_replicate_self] at hz
    omega

theorem countr_one_partial {w : Nat} {L : List Bool} (h : L.length ≤ w) :
    min (detail.countr_one w (bitsToNat L)) L.length = leadCount true L := by
  have hz := countr_one_eq_leadCount w (bitsToNat L)
  rw [natToBits_pad h] at hz
  have hle := leadCount_le_length true L
  by_cases hfull : leadCount true L < L.length
  · rw [leadCount_append_left _ hfull] at hz
    omega
  · have hLfull : leadCount true L = L.length := by omega
    rw [leadCount_append_full _ hLfull] at hz
    have hrep : leadCount true (List.replicate (w - L.length) false) = 0 := by
      cases hwl : w - L.length with
      | zero => simp
      | succ k => simp [List.replicate_succ, leadCount_cons_ne]
    rw [hrep] at hz
    omega

theorem enc_flush_loop_succ (w fuel : Nat) (e : encoder) (buffer : Nat) (bsize : Int) :
    enc_flush_loop w (fuel + 1) e buffer bsize =
      if (detail.literal_size : Int) ≤ bsize ∨ e.state ≠ .init then
        (fun step => enc_flush_loop w fuel step.1 (buffer >>> step.2) (bsize - (step.2 : Int)))
          (enc_push_step e buffer
            (min ((detail.countr_zero w buffer : Int)) bsize).toNat
            (min ((detail.countr_one w buffer : Int)) bsize).toNat)
      else (e, buffer, bsize) := rfl

theorem enc_flush_loop_exit {w fuel : Nat} {e : encoder} {buffer : Nat} {bsize : Int}
    (hst : e.state = .init) (hb : bsize < (detail.literal_size : Int)) (hf : 1 ≤ fuel) :
    enc_flush_loop w fuel e buffer bsize = (e, buffer, bsize) := by
  cases fuel with
  | zero => omega
  | succ fuel =>
    rw [enc_flush_loop_succ, if_neg]
    intro hcon
    rcases hcon with hcon | hcon
    · omega
    · exact hcon hst

/-- Correctness of the drain loop of `encoder::flush`: from a sound state
whose carry holds exactly the bits `L`, it runs drain steps until the state
is `init` and fewer than 7 bits are left, preserving the emitted stream. -/
theorem enc_flush_loop_spec (w : Nat) (hw8 : 8 ≤ w) (hw64 : w ≤ 64) :
    ∀ (fuel : Nat) (e : encoder) (L : List Bool),
      stateOk e → L.length < w → L.length + 2 ≤ fuel →
      ∃ (e₂ : encoder) (buf₂ : Nat) (bsz₂ : Int) (L₂ : List Bool),
        enc_flush_loop w fuel e (bitsToNat L) (L.length : Int) = (e₂, buf₂, bsz₂) ∧
        e₂.state = .init ∧ bsz₂ < (detail.literal_size : Int) ∧
        buf₂ = bitsToNat L₂ ∧ L₂.length ≤ 6 ∧
        (0 < bsz₂ → bsz₂ = (L₂.length : Int)) ∧ (bsz₂ ≤ 0 → L₂ = []) ∧
        e₂.output ++ encSpec .init 0 L₂ = e.output ++ encSpec e.state e.rlen L := by
  intro fuel
  induction fuel with
  | zero =>
    intro e L _ _ hfuel
    omega
  | succ fuel ih =>
    intro e L hst hLw hfuel
    have hzlen := leadCount_le_length false L
    have holen := leadCount_le_length true L
    by_cases hcond : (detail.literal_size : Int) ≤ (L.length : Int) ∨ e.state ≠ .init
    · rw [enc_flush_loop_succ, if_pos hcond]
      have hzv : (min ((detail.countr_zero w (bitsToNat L) : Int)) ((L.length : Nat) : Int)).toNat
          = leadCount false L := by
        have h1 := countr_zero_partial (w := w) (L := L) (by omega)
        have h2 : min ((detail.countr_zero w (bitsToNat L) : Int)) ((L.length : Nat) : Int)
            = ((min (detail.countr_zero w (bitsToNat L)) L.length : Nat) : Int) := by
          simp [Nat.cast_min]
        rw [h2, h1]
        omega
      have hov : (min ((detail.countr_one w (bitsToNat L) : Int)) ((L.length : Nat) : Int)).toNat
          = leadCount true L := by
        have h1 := countr_one_partial (w := w) (L := L) (by omega)
        have h2 : min ((detail.countr_one w (bitsToNat L) : Int)) ((L.length : Nat) : Int)
            = ((min (detail.countr_one w (bitsToNat L)) L.length : Nat) : Int) := by
          simp [Nat.cast_min]
        rw [h2, h1]
        omega
      rw [hzv, hov]
      rcases hsp : enc_push_step e (bitsToNat L) (leadCount false L) (leadCount true L)
        with ⟨e', c⟩
      simp only []
      have hdr := drain_step (z := leadCount false L) (o := leadCount true L)
        (L := L) (R := ([] : List Bool)) w hw8 hst
        (by rw [bitsToNat_take L 7]; norm_num)
        (le_refl _) (by omega) (le_refl _) (by omega)
        (fun h => h) (fun h => h) (fun h => by omega) (fun h => by omega)
        (fun hinit h1 h2 => by
          rcases hcond with hc | hc
          · simp [detail.literal_size] at hc
            omega
          · exact absurd hinit hc)
        (fun h => absurd rfl h) hsp
      obtain ⟨hst', hc1, hcmax, hbuf', hbsz', hcL, heq0⟩ := hdr
      rcases hcL with hcL | ⟨hc1', hLnil, hstinit⟩
      · have hrec := ih e' (L.drop c) hst' (by simp; omega) (by simp; omega)
        have hshr : bitsToNat L >>> c = bitsToNat (L.drop c) := shiftRight_bitsToNat L c
        have hbsr : ((L.length : Nat) : Int) - (c : Int) = (((L.drop c).length : Nat) : Int) := by
          simp [List.length_drop]
          omega
        rw [hshr, hbsr]
        obtain ⟨e₂, buf₂, bsz₂, L₂, heq, hst₂, hb7, hbv, hL6, hp, hn, hout⟩ := hrec
        refine ⟨e₂, buf₂, bsz₂, L₂, heq, hst₂, hb7, hbv, hL6, hp, hn, ?_⟩
        rw [hout]
        have := heq0
        simp only [List.append_nil] at this
        exact this
      · subst hLnil
        subst hc1'
        have hfl : enc_flush_loop w fuel e' (bitsToNat ([] : List Bool) >>> 1)
            (((([] : List Bool).length : Nat) : Int) - (1 : Int)) = (e', 0, -1) := by
          have h0 : bitsToNat ([] : List Bool) >>> 1 = 0 := by simp [bitsToNat]
          rw [h0]
          have h1 : ((([] : List Bool).length : Nat) : Int) - (1 : Int) = -1 := by simp
          rw [h1]
          exact enc_flush_loop_exit hstinit (by simp [detail.literal_size]) (by omega)
        simp only [Nat.cast_one]
        rw [hfl]
        refine ⟨e', 0, -1, [], rfl, hstinit, by simp [detail.literal_size], by simp, by simp,
          by omega, fun _ => rfl, ?_⟩
        have h2 := heq0
        simp only [List.drop_nil, List.append_nil, List.nil_append] at h2
        rw [hstinit] at h2
        rw [encSpec_init_nil] at h2
        simp only [List.append_nil] at h2
        simp only [encSpec_init_nil, List.append_nil]
        exact h2
    · push_neg at hcond
      obtain ⟨h7, hsteq⟩ := hcond
      have hstinit : e.state = .init := not_not.mp (by simpa using hsteq)
      rw [enc_flush_loop_exit hstinit (by omega) (by omega)]
      refine ⟨e, bitsToNat L, (L.length : Int), L, rfl, hstinit, by omega, rfl, ?_, ?_, ?_, ?_⟩
      · simp [detail.literal_size] at h7
        omega
      · intro _
        rfl
      · intro hle
        have : L.length = 0 := by omega
        exact List.length_eq_zero.mp this
      · rw [hstinit]
        rw [encSpec_init_rlen 0 e.rlen]

theorem flush_spec (w : Nat) (hw8 : 8 ≤ w) (hw64 : w ≤ 64) {e : encoder} {bl : List Bool}
    (h : EncRel w e bl) :
    e.flush w = ⟨e.output ++ encSpec e.state e.rlen bl, 0, 0, .init, 0⟩ := by
  obtain ⟨hbuf, hbsz, hblw, hst⟩ := h
  obtain ⟨e₂, buf₂, bsz₂, L₂, heq, hst₂, hbs7, hbufv, hL6, hpos, hneg, hout⟩ :=
    enc_flush_loop_spec w hw8 hw64 (w + 2) e bl hst hblw (by omega)
  unfold encoder.flush
  rw [hbuf, hbsz, heq]
  simp only []
  rw [hst₂]
  by_cases hp : (0 : Int) < bsz₂
  · rw [if_pos hp]
    have hL2ne : L₂ ≠ [] := by
      intro hcon
      have := hpos hp
      rw [hcon] at this
      simp at this
      omega
    have hlit : encSpec .init 0 L₂ = [detail.make_literal (bitsToNat L₂)] := by
      have hzl := leadCount_le_length false L₂
      have hol := leadCount_le_length true L₂
      rw [encSpec_init_literal (by omega) (by omega)
        (by cases L₂ <;> simp_all)]
      rw [List.take_of_length_le (by omega), List.drop_eq_nil_of_le (by omega),
        encSpec_init_nil]
    rw [hbufv] at *
    rw [← hout, hlit]
  · rw [if_neg hp]
    have hL2 : L₂ = [] := hneg (by omega)
    subst hL2
    rw [← hout]
    simp

/-- The bulk `encode` equals the list-level specification encoder on the
concatenated bit stream of the input words. -/
theorem encode_eq_encSpec (w : Nat) (hw8 : 8 ≤ w) (hw64 : w ≤ 64) {ws : List Nat}
    (hws : ∀ x ∈ ws, x < 2 ^ w) :
    encode w ws = encSpec .init 0 (wordsToBits w ws) := by
  have hinit : EncRel w encoder.initSt [] := by
    refine ⟨rfl, rfl, by simp only [List.length_nil]; omega, ?_, ?_⟩
    · intro _
      rfl
    · intro hcon
      exact absurd rfl hcon
  obtain ⟨bl', hrel, hspec⟩ := fold_push_spec w hw8 hw64 ws encoder.initSt [] hinit hws
  unfold encode
  rw [flush_spec w hw8 hw64 hrel]
  simp only []
  have h1 := hspec []
  simp only [List.append_nil, List.nil_append] at h1
  have h2 : encoder.initSt.output = [] := rfl
  rw [h2] at h1
  simp only [List.nil_append] at h1
  rw [h1]
  have h3 : encoder.initSt.state = .init := rfl
  have h4 : encoder.initSt.rlen = 0 := rfl
  rw [h3, h4]

/-! ### Bit-level facts for the decoder -/

theorem lor_shl_mod {w : Nat} (A : List Bool) (v : Nat) (h : A.length ≤ w) :
    bitsToNat A ||| ((v <<< A.length) % 2 ^ w)
      = bitsToNat (A ++ natToBits (w - A.length) v) := by
  have hsplit : (2 : Nat) ^ w = 2 ^ (w - A.length) * 2 ^ A.length := by
    rw [← pow_add]
    congr 1
    omega
  have hmod : (v <<< A.length) % 2 ^ w
      = bitsToNat (natToBits (w - A.length) v) <<< A.length := by
    rw [Nat.shiftLeft_eq, Nat.shiftLeft_eq, hsplit, Nat.mul_mod_mul_right, bitsToNat_natToBits]
  rw [hmod]
  have hov := bitsToNat_lor_overlay A (natToBits (w - A.length) v) A.length (le_refl _)
    (by simp)
  rw [List.take_length] at hov
  exact hov

theorem fill_ones {w : Nat} {bl : List Bool} (h : bl.length ≤ w) :
    bitsToNat bl ||| (((2 ^ w - 1) <<< bl.length) % 2 ^ w)
      = bitsToNat (bl ++ List.replicate (w - bl.length) true) := by
  rw [allOnes_shift_mod h, sub_pow_eq_mul _ _ h]
  have hS : (2 : Nat) ^ bl.length * (2 ^ (w - bl.length) - 1)
      = bitsToNat (List.replicate (w - bl.length) true) <<< bl.length := by
    rw [bitsToNat_replicate_true, Nat.shiftLeft_eq]
    ring
  rw [hS]
  have hov := bitsToNat_lor_overlay bl (List.replicate (w - bl.length) true) bl.length
    (le_refl _) (by simp)
  rw [List.take_length] at hov
  exact hov

theorem set_bit {w : Nat} {bl : List Bool} {r : Nat} (h : bl.length + r < w) :
    bitsToNat bl ||| ((1 <<< (r + bl.length)) % 2 ^ w)
      = bitsToNat ((bl ++ List.replicate r false) ++ [true]) := by
  have hmod : ((1 : Nat) <<< (r + bl.length)) % 2 ^ w = 1 <<< (r + bl.length) := by
    apply Nat.mod_eq_of_lt
    rw [Nat.shiftLeft_eq, one_mul]
    exact Nat.pow_lt_pow_right (by norm_num) (by omega)
  rw [hmod]
  have hA : bitsToNat bl = bitsToNat (bl ++ List.replicate r false) :=
    (bitsToNat_append_replicate_false bl r).symm
  have hone : (1 : Nat) <<< (r + bl.length)
      = bitsToNat [true] <<< (bl ++ List.replicate r false).length := by
    have h1 : bitsToNat [true] = 1 := rfl
    rw [h1]
    congr 1
    simp
    omega
  rw [hA, hone]
  have hov := bitsToNat_lor_overlay (bl ++ List.replicate r false) [true]
    (bl ++ List.replicate r false).length (le_refl _) (by simp)
  rw [List.take_length] at hov
  exact hov

theorem or_allOnes {w a : Nat} (h : a < 2 ^ w) : a ||| (2 ^ w - 1) = 2 ^ w - 1 := by
  apply Nat.eq_of_testBit_eq
  intro i
  rw [Nat.testBit_or]
  rcases lt_or_ge i w with hi | hi
  · simp [Nat.testBit_two_pow_sub_one, hi]
  · have ha : a.testBit i = false :=
      Nat.testBit_lt_two_pow (lt_of_lt_of_le h (Nat.pow_le_pow_right (by norm_num) hi))
    rw [ha]
    simp

theorem take_replicate_append {k n : Nat} (b : Bool) (X : List Bool) (h : k ≤ n) :
    (List.replicate n b ++ X).take k = List.replicate k b := by
  rw [List.take_append_of_le_length (by simp; omega), List.take_replicate]
  congr 1
  omega

theorem drop_replicate_append {k n : Nat} (b : Bool) (X : List Bool) (h : k ≤ n) :
    (List.replicate n b ++ X).drop k = List.replicate (n - k) b ++ X := by
  rw [List.drop_append_of_le_length (by simp; omega), List.drop_replicate]

/-! ### Decoder simulation -/

/-- The run bits (and pending stuffed terminator) still owed by the decoder's
current run state. -/
def stRunBits : decode_state → Nat → List Bool
  | .read, _ => []
  | .zeros, r => List.replicate r false ++ [true]
  | .zeros_max, r => List.replicate r false
  | .ones, r => List.replicate r true ++ [false]
  | .ones_max, r => List.replicate r true

/-- The logical bit stream still pending inside a decoder whose carry register
buffers the bits `bl`. -/
def decPending (d : decoder) (bl : List Bool) : List Bool :=
  bl ++ stRunBits d.state d.rlen ++ blocksBits d.input

/-- Extra loop iterations a `pull` may need before its first `read`-state
iteration. -/
def dExtra : decode_state → Nat
  | .read => 0
  | _ => 1

/-- Coupling between a decoder and its buffered bits `bl`.  In `ones_max` the
register may hold stale bits after an overflow (`buffer_size` is reset to `0`
but the register is not cleared); they are harmless because the next call
in that state ors the full all-ones fill over them, so the relation leaves
the register unconstrained there. -/
def DecRel (w : Nat) (d : decoder) (bl : List Bool) : Prop :=
  d.buffer_size = (bl.length : Int) ∧ bl.length < w ∧ d.buffer < 2 ^ w ∧
    (d.buffer = bitsToNat bl ∨ (d.state = .ones_max ∧ bl = []))

/-- What one call of the `decoder::pull` loop body establishes, at a given
fuel, for a given decoder: with at least `w` pending bits it succeeds with
the next `w` pending bits as the produced word; with fewer it reports the
stream as done. -/
def PullSpecAt (w fuel : Nat) (d : decoder) : Prop :=
  ∀ bl : List Bool,
    DecRel w d bl → (∀ b ∈ d.input, b < 256) →
    2 * d.input.length + 1 + dExtra d.state ≤ fuel →
    (w ≤ (decPending d bl).length →
      ∃ (d' : decoder) (bl' : List Bool),
        decoder.pullF w fuel d
          = (d', ⟨bitsToNat ((decPending d bl).take w), .success⟩) ∧
        DecRel w d' bl' ∧
        decPending d' bl' = (decPending d bl).drop w ∧
        (∀ b ∈ d'.input, b < 256) ∧ d'.input.length ≤ d.input.length) ∧
    ((decPending d bl).length < w →
      ∃ (d' : decoder) (bl' : List Bool),
        decoder.pullF w fuel d = (d', ⟨0, .done⟩) ∧
        d'.input = [] ∧ d'.state = .read ∧ DecRel w d' bl')

def PullSpec (w fuel : Nat) : Prop := ∀ d : decoder, PullSpecAt w fuel d

theorem pullStep_zeros (w : Nat) (hw8 : 8 ≤ w) (fuel : Nat) (ih : PullSpec w fuel)
    (input : List brle8) (buffer : Nat) (bsize : Int) (rlen : Nat) :
    PullSpecAt w (fuel + 1) ⟨input, buffer, bsize, .zeros, rlen⟩ := by
  intro bl hrel hin hfuel
  obtain ⟨hbsz, hblw, hbuflt, hbufv⟩ := hrel
  have hbuf : buffer = bitsToNat bl := by
    rcases hbufv with h | ⟨hcon, -⟩
    · exact h
    · simp at hcon
  simp only [decPending, stRunBits, decoder.pullF, dExtra] at *
  have hbszt : bsize.toNat = bl.length := by omega
  rw [hbszt, hbsz, hbuf]
  have hfree : (((w : Nat) : Int) - ((bl.length : Nat) : Int)).toNat = w - bl.length := by
    omega
  rw [hfree]
  by_cases hov : ((w : Nat) : Int) - ((bl.length : Nat) : Int) < (((rlen + 1 : Nat) : Nat) : Int)
  · rw [if_pos hov]
    have hwle : w ≤ bl.length + rlen := by omega
    constructor
    · intro _
      have htake : (((bl ++ (List.replicate rlen false ++ [true])) ++ blocksBits input).take w)
          = bl ++ List.replicate (w - bl.length) false := by
        rw [List.take_append_of_le_length (by simp; omega)]
        rw [List.take_append_eq_append_take, List.take_of_length_le (by omega)]
        congr 1
        rw [take_replicate_append _ _ (by omega)]
      have hdata : bitsToNat
            (((bl ++ (List.replicate rlen false ++ [true])) ++ blocksBits input).take w)
          = bitsToNat bl := by
        rw [htake, bitsToNat_append_replicate_false]
      rw [hdata]
      refine ⟨_, [], rfl, ?_, ?_, hin, le_refl _⟩
      · exact ⟨rfl, by simp only [List.length_nil]; omega, Nat.two_pow_pos w, Or.inl rfl⟩
      · simp only [decPending, stRunBits]
        rw [List.drop_append_of_le_length (by simp; omega)]
        rw [List.drop_append_eq_append_drop, List.drop_eq_nil_of_le (by omega)]
        simp only [List.nil_append]
        rw [drop_replicate_append _ _ (by omega)]
    · intro hlt
      exfalso
      simp only [List.length_append, List.length_replicate, List.length_cons,
        List.length_nil] at hlt
      omega
  · by_cases heq : (((rlen + 1 : Nat) : Nat) : Int) = ((w : Nat) : Int) - ((bl.length : Nat) : Int)
    · rw [if_neg hov, if_pos heq]
      have hw : bl.length + rlen + 1 = w := by omega
      have hdata : bitsToNat
            (((bl ++ (List.replicate rlen false ++ [true])) ++ blocksBits input).take w)
          = bitsToNat bl ||| ((1 <<< (rlen + bl.length)) % 2 ^ w) := by
        rw [List.take_append_of_le_length (by simp; omega),
          List.take_of_length_le (by simp; omega)]
        rw [set_bit (by omega), ← List.append_assoc]
      constructor
      · intro _
        rw [hdata]
        refine ⟨_, [], rfl, ?_, ?_, hin, le_refl _⟩
        · exact ⟨rfl, by simp only [List.length_nil]; omega, Nat.two_pow_pos w, Or.inl rfl⟩
        · simp only [decPending, stRunBits]
          rw [List.drop_append_of_le_length (by simp; omega),
            List.drop_eq_nil_of_le (by simp; omega)]
          simp
      · intro hlt
        exfalso
        simp only [List.length_append, List.length_replicate, List.length_cons,
          List.length_nil] at hlt
        omega
    · rw [if_neg hov, if_neg heq]
      have hlt : bl.length + rlen + 1 < w := by omega
      rw [set_bit (by omega)]
      have hrec := ih ⟨input, bitsToNat ((bl ++ List.replicate rlen false) ++ [true]),
          ((bl.length : Nat) : Int) + (((rlen + 1 : Nat) : Nat) : Int), .read, rlen⟩
        ((bl ++ List.replicate rlen false) ++ [true])
        ⟨by simp only [List.length_append, List.length_replicate, List.length_cons,
            List.length_nil]; omega,
          by simp only [List.length_append, List.length_replicate, List.length_cons,
            List.length_nil]; omega,
          lt_of_lt_of_le (bitsToNat_lt _) (Nat.pow_le_pow_right (by norm_num)
            (by simp only [List.length_append, List.length_replicate, List.length_cons,
              List.length_nil]; omega)),
          Or.inl rfl⟩
        hin (by simp only [dExtra]; omega)
      have hPeq : decPending ⟨input, bitsToNat ((bl ++ List.replicate rlen false) ++ [true]),
            ((bl.length : Nat) : Int) + (((rlen + 1 : Nat) : Nat) : Int), .read, rlen⟩
            ((bl ++ List.replicate rlen false) ++ [true])
          = (bl ++ (List.replicate rlen false ++ [true])) ++ blocksBits input := by
        simp [decPending, stRunBits]
      rw [hPeq] at hrec
      exact hrec

theorem pullStep_zeros_max (w : Nat) (hw8 : 8 ≤ w) (fuel : Nat) (ih : PullSpec w fuel)
    (input : List brle8) (buffer : Nat) (bsize : Int) (rlen : Nat) :
    PullSpecAt w (fuel + 1) ⟨input, buffer, bsize, .zeros_max, rlen⟩ := by
  intro bl hrel hin hfuel
  obtain ⟨hbsz, hblw, hbuflt, hbufv⟩ := hrel
  have hbuf : buffer = bitsToNat bl := by
    rcases hbufv with h | ⟨hcon, -⟩
    · exact h
    · simp at hcon
  simp only [decPending, stRunBits, decoder.pullF, dExtra] at *
  rw [hbsz, hbuf]
  have hfree : (((w : Nat) : Int) - ((bl.length : Nat) : Int)).toNat = w - bl.length := by
    omega
  rw [hfree]
  by_cases hov : ((w : Nat) : Int) - ((bl.length : Nat) : Int) < ((rlen : Nat) : Int)
  · rw [if_pos hov]
    have hwle : w < bl.length + rlen := by omega
    constructor
    · intro _
      have hdata : bitsToNat (((bl ++ List.replicate rlen false) ++ blocksBits input).take w)
          = bitsToNat bl := by
        rw [List.take_append_of_le_length (by simp; omega)]
        rw [List.take_append_eq_append_take, List.take_of_length_le (by omega),
          List.take_replicate]
        have hmin : min (w - bl.length) rlen = w - bl.length := by omega
        rw [hmin, bitsToNat_append_replicate_false]
      rw [hdata]
      refine ⟨_, [], rfl, ?_, ?_, hin, le_refl _⟩
      · exact ⟨rfl, by simp only [List.length_nil]; omega, Nat.two_pow_pos w, Or.inl rfl⟩
      · simp only [decPending, stRunBits]
        rw [List.drop_append_of_le_length (by simp; omega)]
        rw [List.drop_append_eq_append_drop, List.drop_eq_nil_of_le (by omega)]
        simp only [List.nil_append]
        rw [List.drop_replicate]
    · intro hlt
      exfalso
      simp only [List.length_append, List.length_replicate] at hlt
      omega
  · by_cases heq : ((rlen : Nat) : Int) = ((w : Nat) : Int) - ((bl.length : Nat) : Int)
    · rw [if_neg hov, if_pos heq]
      have hw : bl.length + rlen = w := by omega
      have hdata : bitsToNat (((bl ++ List.replicate rlen false) ++ blocksBits input).take w)
          = bitsToNat bl := by
        rw [List.take_append_of_le_length (by simp; omega),
          List.take_of_length_le (by simp; omega), bitsToNat_append_replicate_false]
      constructor
      · intro _
        rw [hdata]
        refine ⟨_, [], rfl, ?_, ?_, hin, le_refl _⟩
        · exact ⟨rfl, by simp only [List.length_nil]; omega, Nat.two_pow_pos w, Or.inl rfl⟩
        · simp only [decPending, stRunBits]
          rw [List.drop_append_of_le_length (by simp; omega),
            List.drop_eq_nil_of_le (by simp; omega)]
          simp
      · intro hlt
        exfalso
        simp only [List.length_append, List.length_replicate] at hlt
        omega
    · rw [if_neg hov, if_neg heq]
      have hlt : bl.length + rlen < w := by omega
      have hbl1 : bitsToNat bl = bitsToNat (bl ++ List.replicate rlen false) :=
        (bitsToNat_append_replicate_false bl rlen).symm
      rw [hbl1]
      have hrec := ih ⟨input, bitsToNat (bl ++ List.replicate rlen false),
          ((bl.length : Nat) : Int) + ((rlen : Nat) : Int), .read, rlen⟩
        (bl ++ List.replicate rlen false)
        ⟨by simp only [List.length_append, List.length_replicate]; omega,
          by simp only [List.length_append, List.length_replicate]; omega,
          lt_of_lt_of_le (bitsToNat_lt _) (Nat.pow_le_pow_right (by norm_num)
            (by simp only [List.length_append, List.length_replicate]; omega)),
          Or.inl rfl⟩
        hin (by simp only [dExtra]; omega)
      have hPeq : decPending ⟨input, bitsToNat (bl ++ List.replicate rlen false),
            ((bl.length : Nat) : Int) + ((rlen : Nat) : Int), .read, rlen⟩
            (bl ++ List.replicate rlen false)
          = (bl ++ List.replicate rlen false) ++ blocksBits input := by
        simp [decPending, stRunBits]
      rw [hPeq] at hrec
      exact hrec

theorem pullStep_ones (w : Nat) (hw8 : 8 ≤ w) (fuel : Nat) (ih : PullSpec w fuel)
    (input : List brle8) (buffer : Nat) (bsize : Int) (rlen : Nat) :
    PullSpecAt w (fuel + 1) ⟨input, buffer, bsize, .ones, rlen⟩ := by
  intro bl hrel hin hfuel
  obtain ⟨hbsz, hblw, hbuflt, hbufv⟩ := hrel
  have hbuf : buffer = bitsToNat bl := by
    rcases hbufv with h | ⟨hcon, -⟩
    · exact h
    · simp at hcon
  simp only [decPending, stRunBits, decoder.pullF, dExtra] at *
  have hbszt : bsize.toNat = bl.length := by omega
  rw [hbszt, hbsz, hbuf]
  rw [fill_ones (le_of_lt hblw)]
  have hfree : (((w : Nat) : Int) - ((bl.length : Nat) : Int)).toNat = w - bl.length := by
    omega
  rw [hfree]
  by_cases hov : ((w : Nat) : Int) - ((bl.length : Nat) : Int) < (((rlen + 1 : Nat) : Nat) : Int)
  · rw [if_pos hov]
    have hwle : w ≤ bl.length + rlen := by omega
    constructor
    · intro _
      have hdata : bitsToNat
            (((bl ++ (List.replicate rlen true ++ [false])) ++ blocksBits input).take w)
          = bitsToNat (bl ++ List.replicate (w - bl.length) true) := by
        rw [List.take_append_of_le_length (by simp; omega)]
        rw [List.take_append_eq_append_take, List.take_of_length_le (by omega)]
        rw [take_replicate_append _ _ (by omega)]
      rw [hdata]
      refine ⟨_, [], rfl, ?_, ?_, hin, ?_⟩
      · exact ⟨rfl, by simp only [List.length_nil]; omega, Nat.two_pow_pos w, Or.inl rfl⟩
      · simp only [decPending, stRunBits]
        rw [List.drop_append_of_le_length (by simp; omega)]
        rw [List.drop_append_eq_append_drop, List.drop_eq_nil_of_le (by omega)]
        simp only [List.nil_append]
        rw [drop_replicate_append _ _ (by omega)]
      · exact le_refl _
    · intro hlt
      exfalso
      simp only [List.length_append, List.length_replicate, List.length_cons,
        List.length_nil] at hlt
      omega
  · have hle : bl.length + rlen + 1 ≤ w := by omega
    rw [if_neg hov]
    have hmt : (((bl.length : Nat) : Int) + ((rlen : Nat) : Int)).toNat = bl.length + rlen := by
      omega
    rw [hmt, allOnes_shift_mod (by omega), mask_compl (by omega),
      Nat.and_pow_two_sub_one_eq_mod]
    have hbuf2 : bitsToNat (bl ++ List.replicate (w - bl.length) true) % 2 ^ (bl.length + rlen)
        = bitsToNat (bl ++ List.replicate rlen true) := by
      rw [← bitsToNat_take, List.take_append_eq_append_take,
        List.take_of_length_le (by omega), List.take_replicate]
      have hmin : min (bl.length + rlen - bl.length) (w - bl.length) = rlen := by omega
      rw [hmin]
    rw [hbuf2]
    by_cases heq : (((rlen + 1 : Nat) : Nat) : Int)
        = ((w : Nat) : Int) - ((bl.length : Nat) : Int)
    · rw [if_pos heq]
      have hw : bl.length + rlen + 1 = w := by omega
      have hdata : bitsToNat
            (((bl ++ (List.replicate rlen true ++ [false])) ++ blocksBits input).take w)
          = bitsToNat (bl ++ List.replicate rlen true) := by
        rw [List.take_append_of_le_length (by simp; omega),
          List.take_of_length_le (by simp; omega)]
        rw [← List.append_assoc]
        have hrepl : ([false] : List Bool) = List.replicate 1 false := rfl
        rw [hrepl, bitsToNat_append_replicate_false]
      constructor
      · intro _
        rw [hdata]
        refine ⟨_, [], rfl, ?_, ?_, hin, le_refl _⟩
        · exact ⟨rfl, by simp only [List.length_nil]; omega, Nat.two_pow_pos w, Or.inl rfl⟩
        · simp only [decPending, stRunBits]
          rw [List.drop_append_of_le_length (by simp; omega),
            List.drop_eq_nil_of_le (by simp; omega)]
          simp
      · intro hlt
        exfalso
        simp only [List.length_append, List.length_replicate, List.length_cons,
          List.length_nil] at hlt
        omega
    · rw [if_neg heq]
      have hlt : bl.length + rlen + 1 < w := by omega
      have hbl1 : bitsToNat (bl ++ List.replicate rlen true)
          = bitsToNat ((bl ++ List.replicate rlen true) ++ [false]) := by
        have hrepl : ([false] : List Bool) = List.replicate 1 false := rfl
        rw [hrepl, bitsToNat_append_replicate_false]
      rw [hbl1]
      have hrec := ih ⟨input, bitsToNat ((bl ++ List.replicate rlen true) ++ [false]),
          ((bl.length : Nat) : Int) + (((rlen + 1 : Nat) : Nat) : Int), .read, rlen⟩
        ((bl ++ List.replicate rlen true) ++ [false])
        ⟨by simp only [List.length_append, List.length_replicate, List.length_cons,
            List.length_nil]; omega,
          by simp only [List.length_append, List.length_replicate, List.length_cons,
            List.length_nil]; omega,
          lt_of_lt_of_le (bitsToNat_lt _) (Nat.pow_le_pow_right (by norm_num)
            (by simp only [List.length_append, List.length_replicate, List.length_cons,
              List.length_nil]; omega)),
          Or.inl rfl⟩
        hin (by simp only [dExtra]; omega)
      have hPeq : decPending ⟨input, bitsToNat ((bl ++ List.replicate rlen true) ++ [false]),
            ((bl.length : Nat) : Int) + (((rlen + 1 : Nat) : Nat) : Int), .read, rlen⟩
            ((bl ++ List.replicate rlen true) ++ [false])
          = (bl ++ (List.replicate rlen true ++ [false])) ++ blocksBits input := by
        simp [decPending, stRunBits]
      rw [hPeq] at hrec
      exact hrec

theorem pullStep_ones_max (w : Nat) (hw8 : 8 ≤ w) (fuel : Nat) (ih : PullSpec w fuel)
    (input : List brle8) (buffer : Nat) (bsize : Int) (rlen : Nat) :
    PullSpecAt w (fuel + 1) ⟨input, buffer, bsize, .ones_max, rlen⟩ := by
  intro bl hrel hin hfuel
  obtain ⟨hbsz, hblw, hbuflt, hbufv⟩ := hrel
  simp only [decPending, stRunBits, decoder.pullF, dExtra] at *
  have hbszt : bsize.toNat = bl.length := by omega
  rw [hbszt, hbsz]
  have hfill : buffer ||| (((2 ^ w - 1) <<< bl.length) % 2 ^ w)
      = bitsToNat (bl ++ List.replicate (w - bl.length) true) := by
    rcases hbufv with h | ⟨-, hbl0⟩
    · rw [h]
      exact fill_ones (le_of_lt hblw)
    · subst hbl0
      simp only [List.length_nil, Nat.shiftLeft_zero, List.nil_append, Nat.sub_zero]
      rw [Nat.mod_eq_of_lt (by omega), or_allOnes hbuflt, bitsToNat_replicate_true]
  rw [hfill]
  have hfree : (((w : Nat) : Int) - ((bl.length : Nat) : Int)).toNat = w - bl.length := by
    omega
  rw [hfree]
  by_cases hov : ((w : Nat) : Int) - ((bl.length : Nat) : Int) < ((rlen : Nat) : Int)
  · rw [if_pos hov]
    have hwle : w < bl.length + rlen := by omega
    constructor
    · intro _
      have hdata : bitsToNat (((bl ++ List.replicate rlen true) ++ blocksBits input).take w)
          = bitsToNat (bl ++ List.replicate (w - bl.length) true) := by
        rw [List.take_append_of_le_length (by simp; omega)]
        rw [List.take_append_eq_append_take, List.take_of_length_le (by omega),
          List.take_replicate]
        have hmin : min (w - bl.length) rlen = w - bl.length := by omega
        rw [hmin]
      rw [hdata]
      refine ⟨_, [], rfl, ?_, ?_, hin, le_refl _⟩
      · refine ⟨rfl, by simp only [List.length_nil]; omega, ?_, Or.inr ⟨rfl, rfl⟩⟩
        exact lt_of_lt_of_le (bitsToNat_lt _) (Nat.pow_le_pow_right (by norm_num)
          (by simp only [List.length_append, List.length_replicate]; omega))
      · simp only [decPending, stRunBits]
        rw [List.drop_append_of_le_length (by simp; omega)]
        rw [List.drop_append_eq_append_drop, List.drop_eq_nil_of_le (by omega)]
        simp only [List.nil_append]
        rw [List.drop_replicate]
    · intro hlt
      exfalso
      simp only [List.length_append, List.length_replicate] at hlt
      omega
  · by_cases heq : ((bl.length : Nat) : Int) + ((rlen : Nat) : Int) = ((w : Nat) : Int)
    · rw [if_neg hov, if_pos heq]
      have hw : bl.length + rlen = w := by omega
      have hdata : bitsToNat (((bl ++ List.replicate rlen true) ++ blocksBits input).take w)
          = bitsToNat (bl ++ List.replicate (w - bl.length) true) := by
        rw [List.take_append_of_le_length (by simp; omega),
          List.take_of_length_le (by simp; omega)]
        have hr : w - bl.length = rlen := by omega
        rw [hr]
      constructor
      · intro _
        rw [hdata]
        refine ⟨_, [], rfl, ?_, ?_, hin, le_refl _⟩
        · exact ⟨rfl, by simp only [List.length_nil]; omega, Nat.two_pow_pos w, Or.inl rfl⟩
        · simp only [decPending, stRunBits]
          rw [List.drop_append_of_le_length (by simp; omega),
            List.drop_eq_nil_of_le (by simp; omega)]
          simp
      · intro hlt
        exfalso
        simp only [List.length_append, List.length_replicate] at hlt
        omega
    · rw [if_neg hov, if_neg heq]
      have hlt : bl.length + rlen < w := by omega
      have hmt : (((bl.length : Nat) : Int) + ((rlen : Nat) : Int)).toNat
          = bl.length + rlen := by omega
      rw [hmt, allOnes_shift_mod (by omega), mask_compl (by omega),
        Nat.and_pow_two_sub_one_eq_mod]
      have hbuf2 : bitsToNat (bl ++ List.replicate (w - bl.length) true)
            % 2 ^ (bl.length + rlen)
          = bitsToNat (bl ++ List.replicate rlen true) := by
        rw [← bitsToNat_take, List.take_append_eq_append_take,
          List.take_of_length_le (by omega), List.take_replicate]
        have hmin : min (bl.length + rlen - bl.length) (w - bl.length) = rlen := by omega
        rw [hmin]
      rw [hbuf2]
      have hrec := ih ⟨input, bitsToNat (bl ++ List.replicate rlen true),
          ((bl.length : Nat) : Int) + ((rlen : Nat) : Int), .read, rlen⟩
        (bl ++ List.replicate rlen true)
        ⟨by simp only [List.length_append, List.length_replicate]; omega,
          by simp only [List.length_append, List.length_replicate]; omega,
          lt_of_lt_of_le (bitsToNat_lt _) (Nat.pow_le_pow_right (by norm_num)
            (by simp only [List.length_append, List.length_replicate]; omega)),
          Or.inl rfl⟩
        hin (by simp only [dExtra]; omega)
      have hPeq : decPending ⟨input, bitsToNat (bl ++ List.replicate rlen true),
            ((bl.length : Nat) : Int) + ((rlen : Nat) : Int), .read, rlen⟩
            (bl ++ List.replicate rlen true)
          = (bl ++ List.replicate rlen true) ++ blocksBits input := by
        simp [decPending, stRunBits]
      rw [hPeq] at hrec
      exact hrec

theorem pullStep_read (w : Nat) (hw8 : 8 ≤ w) (fuel : Nat) (ih : PullSpec w fuel)
    (input : List brle8) (buffer : Nat) (bsize : Int) (rlen : Nat) :
    PullSpecAt w (fuel + 1) ⟨input, buffer, bsize, .read, rlen⟩ := by
  intro bl hrel hin hfuel
  obtain ⟨hbsz, hblw, hbuflt, hbufv⟩ := hrel
  have hbuf : buffer = bitsToNat bl := by
    rcases hbufv with h | ⟨hcon, -⟩
    · exact h
    · simp at hcon
  cases input with
  | nil =>
    simp only [decPending, stRunBits, decoder.pullF, dExtra, blocksBits_nil,
      List.append_nil] at *
    constructor
    · intro hlen
      exfalso
      omega
    · intro _
      exact ⟨⟨[], buffer, bsize, .read, rlen⟩, bl, rfl, rfl, rfl, hbsz, hblw, hbuflt,
        Or.inl hbuf⟩
  | cons inb rest =>
    have hinb : inb < 256 := hin inb (by simp)
    have hrest : ∀ b ∈ rest, b < 256 := fun b hb => hin b (by simp [hb])
    obtain ⟨hlitf, hzf, hof, hcnt8, hcnt71⟩ := byte_mode_facts inb hinb
    simp only [decPending, stRunBits, decoder.pullF, dExtra, blocksBits_cons,
      List.append_nil, List.length_cons] at *
    rcases Nat.lt_or_ge inb 128 with h128 | h128
    · obtain ⟨hm1, hm2⟩ := hlitf h128
      rw [if_neg hm1, if_neg hm2, blockBits_literal h128]
      have hbszt : bsize.toNat = bl.length := by omega
      rw [hbszt, hbsz, hbuf]
      simp only [detail.literal_size]
      by_cases hsplit : ((w : Nat) : Int) ≤ ((bl.length : Nat) : Int) + (((7 : Nat)) : Int)
      · rw [if_pos hsplit]
        have hwbl : w ≤ bl.length + 7 := by omega
        have hshift : (((w : Nat) : Int) - ((bl.length : Nat) : Int)).toNat
            = w - bl.length := by omega
        rw [hshift]
        have hdata : bitsToNat ((bl ++ (natToBits 7 inb ++ blocksBits rest)).take w)
            = bitsToNat bl ||| ((inb <<< bl.length) % 2 ^ w) := by
          rw [List.take_append_eq_append_take, List.take_of_length_le (by omega)]
          rw [List.take_append_of_le_length (by simp only [length_natToBits]; omega)]
          rw [take_natToBits (by omega), lor_shl_mod bl inb (by omega)]
        rw [hdata]
        constructor
        · intro _
          refine ⟨_, (natToBits 7 inb).drop (w - bl.length), rfl, ?_, ?_, hrest, ?_⟩
          · refine ⟨?_, ?_, ?_, Or.inl ?_⟩
            · simp only [List.length_drop, length_natToBits]
              omega
            · simp only [List.length_drop, length_natToBits]
              omega
            · calc inb >>> (w - bl.length) ≤ inb := by
                    rw [Nat.shiftRight_eq_div_pow]
                    exact Nat.div_le_self _ _
                _ < 256 := hinb
                _ ≤ 2 ^ w := by
                    calc (256 : Nat) = 2 ^ 8 := by norm_num
                      _ ≤ 2 ^ w := Nat.pow_le_pow_right (by norm_num) hw8
            · conv_lhs => rw [← bitsToNat_natToBits_of_lt
                (lt_of_lt_of_eq h128 (by norm_num : (128 : Nat) = 2 ^ 7))]
              rw [shiftRight_bitsToNat]
          · have hdrop : (bl ++ (natToBits 7 inb ++ blocksBits rest)).drop w
                = (natToBits 7 inb).drop (w - bl.length) ++ blocksBits rest := by
              rw [List.drop_append_eq_append_drop, List.drop_eq_nil_of_le (by omega : bl.length ≤ w)]
              simp only [List.nil_append]
              rw [List.drop_append_eq_append_drop]
              have h0 : w - bl.length - (natToBits 7 inb).length = 0 := by
                simp only [length_natToBits]
                omega
              rw [h0, List.drop_zero]
            simp only [decPending, stRunBits, List.append_nil]
            rw [hdrop]
          · exact Nat.le_succ _
        · intro hlt
          exfalso
          simp only [List.length_append, length_natToBits] at hlt
          omega
      · rw [if_neg hsplit]
        have hwlt : bl.length + 7 < w := by omega
        have h7 : bitsToNat (natToBits 7 inb) = inb :=
          bitsToNat_natToBits_of_lt (lt_of_lt_of_eq h128 (by norm_num : (128 : Nat) = 2 ^ 7))
        have hpad : natToBits (w - bl.length) inb
            = natToBits 7 inb ++ List.replicate (w - bl.length - 7) false := by
          conv_lhs => rw [← h7]
          rw [natToBits_pad (by simp only [length_natToBits]; omega)]
          simp only [length_natToBits]
        have hbuf1 : bitsToNat bl ||| ((inb <<< bl.length) % 2 ^ w)
            = bitsToNat (bl ++ natToBits 7 inb) := by
          rw [lor_shl_mod bl inb (by omega), hpad, ← List.append_assoc,
            bitsToNat_append_replicate_false]
        rw [hbuf1]
        have hrec := ih ⟨rest, bitsToNat (bl ++ natToBits 7 inb),
            ((bl.length : Nat) : Int) + (((7 : Nat)) : Int), .read, rlen⟩
          (bl ++ natToBits 7 inb)
          ⟨by simp only [List.length_append, length_natToBits]; omega,
            by simp only [List.length_append, length_natToBits]; omega,
            lt_of_lt_of_le (bitsToNat_lt _) (Nat.pow_le_pow_right (by norm_num)
              (by simp only [List.length_append, length_natToBits]; omega)),
            Or.inl rfl⟩
          hrest (by simp only [dExtra]; omega)
        have hPeq : decPending ⟨rest, bitsToNat (bl ++ natToBits 7 inb),
              ((bl.length : Nat) : Int) + (((7 : Nat)) : Int), .read, rlen⟩
              (bl ++ natToBits 7 inb)
            = bl ++ (natToBits 7 inb ++ blocksBits rest) := by
          simp [decPending, stRunBits]
        rw [hPeq] at hrec
        constructor
        · intro hF
          obtain ⟨d', bl', heq, hrel', hpend', hin', hlen'⟩ := hrec.1 hF
          exact ⟨d', bl', heq, hrel', hpend', hin', le_trans hlen' (by simp)⟩
        · exact hrec.2
    · rcases Nat.lt_or_ge inb 192 with h192 | h192
      · obtain ⟨hmz, -⟩ := hzf h128 h192
        rw [if_pos hmz]
        by_cases hc71 : detail.count inb < detail.max_count
        · rw [if_pos hc71]
          have hbb : blockBits inb = List.replicate (detail.count inb) false ++ [true] := by
            unfold blockBits
            rw [if_pos hmz, if_pos hc71]
          rw [hbb]
          have hrec := ih ⟨rest, buffer, bsize, .zeros, detail.count inb⟩ bl
            ⟨hbsz, hblw, hbuflt, Or.inl hbuf⟩ hrest
            (by simp only [dExtra]; omega)
          have hPeq : decPending ⟨rest, buffer, bsize, .zeros, detail.count inb⟩ bl
              = bl ++ ((List.replicate (detail.count inb) false ++ [true])
                  ++ blocksBits rest) := by
            simp [decPending, stRunBits]
          rw [hPeq] at hrec
          constructor
          · intro hF
            obtain ⟨d', bl', heq, hrel', hpend', hin', hlen'⟩ := hrec.1 hF
            exact ⟨d', bl', heq, hrel', hpend', hin', le_trans hlen' (by simp)⟩
          · exact hrec.2
        · rw [if_neg hc71]
          have hbb : blockBits inb = List.replicate (detail.count inb) false := by
            unfold blockBits
            rw [if_pos hmz, if_neg hc71, List.append_nil]
          rw [hbb]
          have hrec := ih ⟨rest, buffer, bsize, .zeros_max, detail.count inb⟩ bl
            ⟨hbsz, hblw, hbuflt, Or.inl hbuf⟩ hrest
            (by simp only [dExtra]; omega)
          have hPeq : decPending ⟨rest, buffer, bsize, .zeros_max, detail.count inb⟩ bl
              = bl ++ (List.replicate (detail.count inb) false ++ blocksBits rest) := by
            simp [decPending, stRunBits]
          rw [hPeq] at hrec
          constructor
          · intro hF
            obtain ⟨d', bl', heq, hrel', hpend', hin', hlen'⟩ := hrec.1 hF
            exact ⟨d', bl', heq, hrel', hpend', hin', le_trans hlen' (by simp)⟩
          · exact hrec.2
      · obtain ⟨hmo, -⟩ := hof h192
        rw [if_neg (by rw [hmo]; decide), if_pos hmo]
        by_cases hc71 : detail.count inb < detail.max_count
        · rw [if_pos hc71]
          have hbb : blockBits inb = List.replicate (detail.count inb) true ++ [false] := by
            unfold blockBits
            rw [if_neg (by rw [hmo]; decide), if_pos hmo, if_pos hc71]
          rw [hbb]
          have hrec := ih ⟨rest, buffer, bsize, .ones, detail.count inb⟩ bl
            ⟨hbsz, hblw, hbuflt, Or.inl hbuf⟩ hrest
            (by simp only [dExtra]; omega)
          have hPeq : decPending ⟨rest, buffer, bsize, .ones, detail.count inb⟩ bl
              = bl ++ ((List.replicate (detail.count inb) true ++ [false])
                  ++ blocksBits rest) := by
            simp [decPending, stRunBits]
          rw [hPeq] at hrec
          constructor
          · intro hF
            obtain ⟨d', bl', heq, hrel', hpend', hin', hlen'⟩ := hrec.1 hF
            exact ⟨d', bl', heq, hrel', hpend', hin', le_trans hlen' (by simp)⟩
          · exact hrec.2
        · rw [if_neg hc71]
          have hbb : blockBits inb = List.replicate (detail.count inb) true := by
            unfold blockBits
            rw [if_neg (by rw [hmo]; decide), if_pos hmo, if_neg hc71, List.append_nil]
          rw [hbb]
          have hrec := ih ⟨rest, buffer, bsize, .ones_max, detail.count inb⟩ bl
            ⟨hbsz, hblw, hbuflt, Or.inl hbuf⟩ hrest
            (by simp only [dExtra]; omega)
          have hPeq : decPending ⟨rest, buffer, bsize, .ones_max, detail.count inb⟩ bl
              = bl ++ (List.replicate (detail.count inb) true ++ blocksBits rest) := by
            simp [decPending, stRunBits]
          rw [hPeq] at hrec
          constructor
          · intro hF
            obtain ⟨d', bl', heq, hrel', hpend', hin', hlen'⟩ := hrec.1 hF
            exact ⟨d', bl', heq, hrel', hpend', hin', le_trans hlen' (by simp)⟩
          · exact hrec.2

/-- The central decoder simulation: with enough fuel, one trip through the
`pull` loop produces the next `w` pending bits as a word, or reports `done`
when fewer than `w` bits remain. -/
theorem pullF_spec (w : Nat) (hw8 : 8 ≤ w) : ∀ fuel, PullSpec w fuel := by
  intro fuel
  induction fuel with
  | zero =>
    intro d bl _ _ hfuel
    exfalso
    have h1 : 0 ≤ dExtra d.state := Nat.zero_le _
    omega
  | succ fuel ih =>
    intro d
    obtain ⟨input, buffer, bsize, st, rlen⟩ := d
    cases st with
    | read => exact pullStep_read w hw8 fuel ih input buffer bsize rlen
    | zeros => exact pullStep_zeros w hw8 fuel ih input buffer bsize rlen
    | zeros_max => exact pullStep_zeros_max w hw8 fuel ih input buffer bsize rlen
    | ones => exact pullStep_ones w hw8 fuel ih input buffer bsize rlen
    | ones_max => exact pullStep_ones_max w hw8 fuel ih input buffer bsize rlen

theorem dExtra_le (s : decode_state) : dExtra s ≤ 1 := by
  cases s <;> simp [dExtra]

/-- Correctness of one public `decoder::pull` call. -/
theorem pull_spec (w : Nat) (hw8 : 8 ≤ w) (d : decoder) (bl : List Bool)
    (hrel : DecRel w d bl) (hin : ∀ b ∈ d.input, b < 256) :
    (w ≤ (decPending d bl).length →
      ∃ (d' : decoder) (bl' : List Bool),
        d.pull w = (d', ⟨bitsToNat ((decPending d bl).take w), .success⟩) ∧
        DecRel w d' bl' ∧ decPending d' bl' = (decPending d bl).drop w ∧
        (∀ b ∈ d'.input, b < 256)) ∧
    ((decPending d bl).length < w →
      ∃ (d' : decoder) (bl' : List Bool),
        d.pull w = (d', ⟨0, .done⟩) ∧
        d'.input = [] ∧ d'.state = .read ∧ DecRel w d' bl') := by
  have h := pullF_spec w hw8 (2 * d.input.length + 2) d bl hrel hin
    (by have := dExtra_le d.state; omega)
  simp only [decoder.pull]
  constructor
  · intro hge
    obtain ⟨d', bl', heq, hrel', hpend', hin', -⟩ := h.1 hge
    exact ⟨d', bl', heq, hrel', hpend', hin'⟩
  · exact h.2

theorem blockBits_length_le (b : brle8) : (blockBits b).length ≤ 72 := by
  have h1 : detail.count b ≤ 71 := by
    simp only [detail.count, detail.min_brle_len]
    exact Nat.add_le_add_right Nat.and_le_right 8
  unfold blockBits
  split_ifs <;>
    simp [List.length_append, List.length_replicate, length_natToBits] <;>
    omega

theorem blocksBits_length_le (bs : List brle8) :
    (blocksBits bs).length ≤ 72 * bs.length := by
  induction bs with
  | nil => simp
  | cons b bs ih =>
    simp only [blocksBits_cons, List.length_append, List.length_cons]
    have := blockBits_length_le b
    omega

/-- Correctness of the drive-to-completion loop of the bulk `decode`. -/
theorem decodeLoop_spec (w : Nat) (hw8 : 8 ≤ w) :
    ∀ (fuel : Nat) (d : decoder) (bl : List Bool) (acc : List Nat),
      DecRel w d bl → (∀ b ∈ d.input, b < 256) →
      (decPending d bl).length / w + 1 ≤ fuel →
      decodeLoop w fuel d acc = acc ++ wordsOfBits w (decPending d bl) := by
  intro fuel
  induction fuel with
  | zero =>
    intro d bl acc _ _ hfuel
    exact absurd hfuel (Nat.not_succ_le_zero _)
  | succ fuel ih =>
    intro d bl acc hrel hin hfuel
    have hp := pull_spec w hw8 d bl hrel hin
    rcases Nat.lt_or_ge (decPending d bl).length w with hlt | hge
    · obtain ⟨d', bl', heq, -, -, -⟩ := hp.2 hlt
      simp only [decodeLoop]
      rw [heq]
      simp only []
      rw [wordsOfBits, dif_neg (by rintro ⟨-, h2⟩; omega)]
      simp
    · obtain ⟨d', bl', heq, hrel', hpend', hin'⟩ := hp.1 hge
      simp only [decodeLoop]
      rw [heq]
      simp only []
      have hdiv : (decPending d bl).length / w
          = ((decPending d bl).length - w) / w + 1 := by
        conv_lhs => rw [show (decPending d bl).length
          = ((decPending d bl).length - w) + w by omega]
        rw [Nat.add_div_right _ (by omega)]
      have hrec := ih d' bl' (acc ++ [bitsToNat ((decPending d bl).take w)]) hrel' hin'
        (by rw [hpend', List.length_drop]; omega)
      rw [hrec, hpend']
      conv_rhs => rw [wordsOfBits]
      rw [dif_pos ⟨by omega, hge⟩]
      simp

/-- The bulk `decode` equals chunking the concatenated block bit stream into
full `w`-bit words. -/
theorem decode_eq_wordsOfBits (w : Nat) (hw8 : 8 ≤ w) (input : List brle8)
    (hin : ∀ b ∈ input, b < 256) :
    decode w input = wordsOfBits w (blocksBits input) := by
  unfold decode
  have hrel : DecRel w ⟨input, 0, 0, .read, 0⟩ [] :=
    ⟨rfl, by simp only [List.length_nil]; omega, Nat.two_pow_pos w, Or.inl rfl⟩
  have hP : decPending ⟨input, 0, 0, .read, 0⟩ [] = blocksBits input := by
    simp [decPending, stRunBits]
  have hlen := blocksBits_length_le input
  have hd := decodeLoop_spec w hw8 (72 * input.length + 2) ⟨input, 0, 0, .read, 0⟩ [] []
    hrel hin
    (by
      rw [hP]
      have := Nat.div_le_self (blocksBits input).length w
      omega)
  rw [hP] at hd
  simpa using hd

/-! ### Word chunking lemmas and the round trip -/

theorem wordsToBits_length (w : Nat) (ws : List Nat) :
    (wordsToBits w ws).length = w * ws.length := by
  induction ws with
  | nil => simp [wordsToBits]
  | cons x ws ih =>
    simp only [wordsToBits, List.flatMap_cons, List.length_append, length_natToBits,
      List.length_cons]
    simp only [wordsToBits] at ih
    rw [ih, Nat.mul_succ]
    omega

theorem wordsOfBits_nil (w : Nat) : wordsOfBits w [] = [] := by
  rw [wordsOfBits, dif_neg]
  rintro ⟨h1, h2⟩
  simp at h2
  omega

theorem wordsOfBits_append_small (w : Nat) (hw : 0 < w) :
    ∀ (n : Nat) (A pad : List Bool), A.length ≤ n → w ∣ A.length → pad.length < w →
      wordsOfBits w (A ++ pad) = wordsOfBits w A := by
  intro n
  induction n with
  | zero =>
    intro A pad hA hdvd hpad
    have hA0 : A = [] := List.length_eq_zero.mp (by omega)
    subst hA0
    simp only [List.nil_append]
    rw [wordsOfBits_nil, wordsOfBits, dif_neg]
    rintro ⟨-, h2⟩
    omega
  | succ n ih =>
    intro A pad hA hdvd hpad
    rcases Nat.lt_or_ge A.length w with hlt | hge
    · have h0 : A.length = 0 := Nat.eq_zero_of_dvd_of_lt hdvd hlt
      have hA0 : A = [] := List.length_eq_zero.mp h0
      subst hA0
      simp only [List.nil_append]
      rw [wordsOfBits_nil, wordsOfBits, dif_neg]
      rintro ⟨-, h2⟩
      omega
    · conv_lhs => rw [wordsOfBits]
      conv_rhs => rw [wordsOfBits]
      rw [dif_pos ⟨hw, by simp; omega⟩, dif_pos ⟨hw, hge⟩]
      congr 1
      · congr 1
        exact List.take_append_of_le_length hge
      · rw [List.drop_append_of_le_length hge]
        exact ih (A.drop w) pad (by simp; omega)
          (by simp only [List.length_drop]; exact Nat.dvd_sub' hdvd (dvd_refl w)) hpad

theorem wordsOfBits_wordsToBits (w : Nat) (hw : 0 < w) :
    ∀ ws : List Nat, (∀ x ∈ ws, x < 2 ^ w) →
      wordsOfBits w (wordsToBits w ws) = ws := by
  intro ws
  induction ws with
  | nil =>
    intro _
    simp only [wordsToBits, List.flatMap_nil]
    exact wordsOfBits_nil w
  | cons x ws ih =>
    intro hws
    have hx : x < 2 ^ w := hws x (by simp)
    have hrest : ∀ y ∈ ws, y < 2 ^ w := fun y hy => hws y (by simp [hy])
    simp only [wordsToBits, List.flatMap_cons]
    rw [wordsOfBits, dif_pos ⟨hw, by simp⟩]
    congr 1
    · rw [List.take_append_of_le_length (by simp), List.take_of_length_le (by simp)]
      exact bitsToNat_natToBits_of_lt hx
    · rw [List.drop_append_of_le_length (by simp), List.drop_eq_nil_of_le (by simp),
        List.nil_append]
      simp only [wordsToBits] at ih
      exact ih hrest

theorem wordsOfBits_length (w : Nat) (hw : 0 < w) :
    ∀ (n : Nat) (L : List Bool), L.length ≤ n →
      (wordsOfBits w L).length = L.length / w := by
  intro n
  induction n with
  | zero =>
    intro L hL
    have hL0 : L = [] := List.length_eq_zero.mp (by omega)
    subst hL0
    rw [wordsOfBits_nil]
    simp
  | succ n ih =>
    intro L hL
    rcases Nat.lt_or_ge L.length w with hlt | hge
    · rw [wordsOfBits, dif_neg (by rintro ⟨-, h⟩; omega)]
      simp [Nat.div_eq_of_lt hlt]
    · rw [wordsOfBits, dif_pos ⟨hw, hge⟩]
      simp only [List.length_cons]
      rw [ih (L.drop w) (by simp; omega)]
      simp only [List.length_drop]
      conv_rhs => rw [show L.length = (L.length - w) + w by omega]
      rw [Nat.add_div_right _ hw]

/-- A block the encoder is allowed to construct: a literal, or a run block
built by `make_zeros`/`make_ones` from a count satisfying the asserted range
`min_brle_len ≤ count ≤ max_count`. -/
def blockWellFormed (b : brle8) : Prop :=
  (∃ v, b = detail.make_literal v) ∨
  (∃ c, 8 ≤ c ∧ c ≤ 71 ∧ (b = detail.make_zeros c ∨ b = detail.make_ones c))

theorem encSpec_blocks_wf : ∀ st r L, specOk st r L →
    ∀ b ∈ encSpec st r L, blockWellFormed b := by
  intro st r L
  induction st, r, L using encSpec.induct with
  | case1 x L h ih =>
    intro _
    rw [encSpec_init_enterZ h]
    exact ih ⟨by omega, by omega⟩
  | case2 x L hz h ih =>
    intro _
    rw [encSpec_init_enterO hz h]
    exact ih ⟨by omega, by omega⟩
  | case3 x L hz ho hemp =>
    intro _
    have hL : L = [] := List.isEmpty_iff.mp hemp
    subst hL
    simp
  | case4 x L hz ho hemp ih =>
    intro _
    rw [encSpec_init_literal hz ho hemp]
    intro b hb
    rcases List.mem_cons.mp hb with hb | hb
    · exact Or.inl ⟨bitsToNat (L.take 7), hb⟩
    · exact ih trivial b hb
  | case5 r L h ih =>
    intro hok
    rw [encSpec_zeros_big h]
    intro b hb
    rcases List.mem_cons.mp hb with hb | hb
    · exact Or.inr ⟨71, by omega, by omega, Or.inl hb⟩
    · exact ih trivial b hb
  | case6 r L h hemp =>
    intro hok
    obtain ⟨h8, h70⟩ : 8 ≤ r + leadCount false L ∧ r ≤ 70 := hok
    rw [encSpec_zeros_end h hemp]
    intro b hb
    rcases List.mem_cons.mp hb with hb | hb
    · exact Or.inr ⟨r + leadCount false L, by omega, by omega, Or.inl hb⟩
    · simp at hb
  | case7 r L h hemp ih =>
    intro hok
    obtain ⟨h8, h70⟩ : 8 ≤ r + leadCount false L ∧ r ≤ 70 := hok
    rw [encSpec_zeros_emit h hemp]
    intro b hb
    rcases List.mem_cons.mp hb with hb | hb
    · exact Or.inr ⟨r + leadCount false L, by omega, by omega, Or.inl hb⟩
    · exact ih trivial b hb
  | case8 r L h ih =>
    intro hok
    rw [encSpec_ones_big h]
    intro b hb
    rcases List.mem_cons.mp hb with hb | hb
    · exact Or.inr ⟨71, by omega, by omega, Or.inr hb⟩
    · exact ih trivial b hb
  | case9 r L h hemp =>
    intro hok
    obtain ⟨h8, h70⟩ : 8 ≤ r + leadCount true L ∧ r ≤ 70 := hok
    rw [encSpec_ones_end h hemp]
    intro b hb
    rcases List.mem_cons.mp hb with hb | hb
    · exact Or.inr ⟨r + leadCount true L, by omega, by omega, Or.inr hb⟩
    · simp at hb
  | case10 r L h hemp ih =>
    intro hok
    obtain ⟨h8, h70⟩ : 8 ≤ r + leadCount true L ∧ r ≤ 70 := hok
    rw [encSpec_ones_emit h hemp]
    intro b hb
    rcases List.mem_cons.mp hb with hb | hb
    · exact Or.inr ⟨r + leadCount true L, by omega, by omega, Or.inr hb⟩
    · exact ih trivial b hb

theorem blockWellFormed_lt {b : brle8} (h : blockWellFormed b) : b < 256 := by
  rcases h with ⟨v, hv⟩ | ⟨c, h8, h71, hc | hc⟩
  · subst hv
    exact lt_trans (make_literal_lt v) (by norm_num)
  · subst hc
    exact (make_zeros_facts c (by omega) h8).2.2
  · subst hc
    exact (make_ones_facts c (by omega) h8).2.2

/-- Round trip at the level of the bulk wrappers. -/
theorem decode_encode (w : Nat) (hw8 : 8 ≤ w) (hw64 : w ≤ 64) (ws : List Nat)
    (hws : ∀ x ∈ ws, x < 2 ^ w) :
    decode w (encode w ws) = ws := by
  rw [encode_eq_encSpec w hw8 hw64 hws]
  rw [decode_eq_wordsOfBits w hw8 _
    (fun b hb => blockWellFormed_lt (encSpec_blocks_wf .init 0 (wordsToBits w ws)
      trivial b hb))]
  obtain ⟨pad, hpad, hplen⟩ := blocksBits_encSpec .init 0 (wordsToBits w ws) trivial
  rw [hpad]
  simp only [stBits, List.nil_append]
  rw [wordsOfBits_append_small w (by omega) (wordsToBits w ws).length _ _ (le_refl _)
    (by rw [wordsToBits_length]; exact Dvd.intro _ rfl) (by omega)]
  exact wordsOfBits_wordsToBits w (by omega) ws hws

/-! ### Output-size bound -/

def encPend : encode_state → Nat → Nat
  | .init, _ => 0
  | _, r => r

theorem encSpec_length_le : ∀ st r L, specOk st r L →
    7 * (encSpec st r L).length ≤ encPend st r + L.length + 6 := by
  intro st r L
  induction st, r, L using encSpec.induct with
  | case1 x L h ih =>
    intro _
    rw [encSpec_init_enterZ h]
    have := ih ⟨by omega, by omega⟩
    simp only [encPend] at *
    omega
  | case2 x L hz h ih =>
    intro _
    rw [encSpec_init_enterO hz h]
    have := ih ⟨by omega, by omega⟩
    simp only [encPend] at *
    omega
  | case3 x L hz ho hemp =>
    intro _
    have hL : L = [] := List.isEmpty_iff.mp hemp
    subst hL
    simp
  | case4 x L hz ho hemp ih =>
    intro _
    rw [encSpec_init_literal hz ho hemp]
    have h1 : 1 ≤ L.length := by
      cases L
      · simp at hemp
      · simp
    have := ih trivial
    simp only [encPend, List.length_cons, List.length_drop] at *
    omega
  | case5 r L h ih =>
    intro hok
    obtain ⟨h8, h70⟩ : 8 ≤ r + leadCount false L ∧ r ≤ 70 := hok
    have hz := leadCount_le_length false L
    rw [encSpec_zeros_big h]
    have := ih trivial
    have hmin : min (71 - r) (leadCount false L) = 71 - r := by omega
    rw [hmin] at this ⊢
    simp only [encPend, List.length_cons, List.length_drop] at *
    omega
  | case6 r L h hemp =>
    intro hok
    obtain ⟨h8, h70⟩ : 8 ≤ r + leadCount false L ∧ r ≤ 70 := hok
    have hz := leadCount_le_length false L
    rw [encSpec_zeros_end h hemp]
    simp only [encPend, List.length_cons, List.length_nil]
    omega
  | case7 r L h hemp ih =>
    intro hok
    obtain ⟨h8, h70⟩ : 8 ≤ r + leadCount false L ∧ r ≤ 70 := hok
    have hz := leadCount_le_length false L
    rw [encSpec_zeros_emit h hemp]
    have := ih trivial
    simp only [encPend, List.length_cons, List.length_drop] at *
    omega
  | case8 r L h ih =>
    intro hok
    obtain ⟨h8, h70⟩ : 8 ≤ r + leadCount true L ∧ r ≤ 70 := hok
    have hz := leadCount_le_length true L
    rw [encSpec_ones_big h]
    have := ih trivial
    have hmin : min (71 - r) (leadCount true L) = 71 - r := by omega
    rw [hmin] at this ⊢
    simp only [encPend, List.length_cons, List.length_drop] at *
    omega
  | case9 r L h hemp =>
    intro hok
    obtain ⟨h8, h70⟩ : 8 ≤ r + leadCount true L ∧ r ≤ 70 := hok
    have hz := leadCount_le_length true L
    rw [encSpec_ones_end h hemp]
    simp only [encPend, List.length_cons, List.length_nil]
    omega
  | case10 r L h hemp ih =>
    intro hok
    obtain ⟨h8, h70⟩ : 8 ≤ r + leadCount true L ∧ r ≤ 70 := hok
    have hz := leadCount_le_length true L
    rw [encSpec_ones_emit h hemp]
    have := ih trivial
    simp only [encPend, List.length_cons, List.length_drop] at *
    omega

/-- The worst case for the size bound: a bit stream with no run of 8 or more
identical bits anywhere. -/
def NoLongRun (L : List Bool) : Prop := ∀ (i : Nat) (b : Bool), leadCount b (L.drop i) ≤ 7

theorem encSpec_length_worst :
    ∀ (n : Nat) (L : List Bool), L.length ≤ n → NoLongRun L →
      (encSpec .init 0 L).length = (L.length + 6) / 7 := by
  intro n
  induction n with
  | zero =>
    intro L hL _
    have hL0 : L = [] := List.length_eq_zero.mp (by omega)
    subst hL0
    simp
  | succ n ih =>
    intro L hL hnr
    cases hLe : L with
    | nil =>
      simp
    | cons x t =>
      rw [← hLe]
      have hne : L ≠ [] := by rw [hLe]; simp
      have h1 : 1 ≤ L.length := by
        rw [hLe]
        simp
      have hzl : leadCount false L ≤ 7 := by
        have := hnr 0 false
        rwa [List.drop_zero] at this
      have hol : leadCount true L ≤ 7 := by
        have := hnr 0 true
        rwa [List.drop_zero] at this
      rw [encSpec_init_literal (by omega) (by omega)
        (by rw [hLe]; simp)]
      have hnr' : NoLongRun (L.drop 7) := by
        intro i b
        rw [List.drop_drop]
        exact hnr (7 + i) b
      rw [List.length_cons, ih (L.drop 7) (by simp; omega) hnr']
      simp only [List.length_drop]
      omega

/-! ### Arbitrary interleavings of the public encoder operations -/

theorem specOk_of_stateOk {e : encoder} (h : stateOk e) (L : List Bool) :
    specOk e.state e.rlen L := by
  obtain ⟨h1, h2⟩ := h
  cases hst : e.state with
  | init => trivial
  | zeros =>
    have h3 := h2 (by rw [hst]; intro hcon; cases hcon)
    exact ⟨by omega, by omega⟩
  | ones =>
    have h3 := h2 (by rw [hst]; intro hcon; cases hcon)
    exact ⟨by omega, by omega⟩

inductive EncOp
  | push (d : Nat)
  | flush

/-- Run an arbitrary interleaving of public `push`/`flush` calls. -/
def encRun (w : Nat) : encoder → List EncOp → encoder
  | e, [] => e
  | e, .push d :: ops => encRun w (e.push w d) ops
  | e, .flush :: ops => encRun w (e.flush w) ops

def EncOpValid (w : Nat) : EncOp → Prop
  | .push d => d < 2 ^ w
  | .flush => True

/-- Invariant of every reachable encoder state: the buffer relation holds
and every block emitted so far is well formed. -/
theorem encRun_invariant (w : Nat) (hw8 : 8 ≤ w) (hw64 : w ≤ 64) :
    ∀ (ops : List EncOp) (e : encoder) (bl : List Bool),
      EncRel w e bl → (∀ b ∈ e.output, blockWellFormed b) →
      (∀ op ∈ ops, EncOpValid w op) →
      ∃ bl', EncRel w (encRun w e ops) bl' ∧
        ∀ b ∈ (encRun w e ops).output, blockWellFormed b := by
  intro ops
  induction ops with
  | nil =>
    intro e bl hrel hwf _
    exact ⟨bl, hrel, hwf⟩
  | cons op ops ih =>
    intro e bl hrel hwf hv
    have hstok : stateOk e := hrel.2.2.2
    cases op with
    | push d =>
      have hd : d < 2 ^ w := hv (.push d) (by simp)
      obtain ⟨bl₁, hrel₁, hout₁⟩ := push_spec w hw8 hw64 hd hrel
      have hspec := hout₁ []
      have hwf' : ∀ b ∈ (e.push w d).output, blockWellFormed b := by
        intro b hb
        have hmem : b ∈ (e.push w d).output
            ++ encSpec (e.push w d).state (e.push w d).rlen (bl₁ ++ []) :=
          List.mem_append_left _ hb
        rw [hspec] at hmem
        rcases List.mem_append.mp hmem with hm | hm
        · exact hwf b hm
        · exact encSpec_blocks_wf e.state e.rlen _ (specOk_of_stateOk hstok _) b hm
      exact ih (e.push w d) bl₁ hrel₁ hwf' (fun op hop => hv op (by simp [hop]))
    | flush =>
      have hfl := flush_spec w hw8 hw64 hrel
      have hrel' : EncRel w (e.flush w) [] := by
        rw [hfl]
        exact ⟨rfl, rfl, by simp only [List.length_nil]; omega,
          fun _ => rfl, fun hcon => absurd rfl hcon⟩
      have hwf' : ∀ b ∈ (e.flush w).output, blockWellFormed b := by
        rw [hfl]
        intro b hb
        rcases List.mem_append.mp hb with hm | hm
        · exact hwf b hm
        · exact encSpec_blocks_wf e.state e.rlen bl (specOk_of_stateOk hstok bl) b hm
      exact ih (e.flush w) [] hrel' hwf' (fun op hop => hv op (by simp [hop]))

/-- Iterate the public `decoder::pull`. -/
def decRun (w : Nat) : Nat → decoder → decoder
  | 0, d => d
  | n + 1, d => decRun w n (d.pull w).1

theorem decRun_invariant (w : Nat) (hw8 : 8 ≤ w) :
    ∀ (n : Nat) (d : decoder) (bl : List Bool),
      DecRel w d bl → (∀ b ∈ d.input, b < 256) →
      ∃ bl', DecRel w (decRun w n d) bl' ∧ ∀ b ∈ (decRun w n d).input, b < 256 := by
  intro n
  induction n with
  | zero =>
    intro d bl hrel hin
    exact ⟨bl, hrel, hin⟩
  | succ n ih =>
    intro d bl hrel hin
    rcases Nat.lt_or_ge (decPending d bl).length w with hlt | hge
    · obtain ⟨d', bl', heq, hinp', -, hrel'⟩ := (pull_spec w hw8 d bl hrel hin).2 hlt
      have hstep : (d.pull w).1 = d' := by rw [heq]
      have hin' : ∀ b ∈ d'.input, b < 256 := by
        rw [hinp']
        intro b hb
        simp at hb
      have := ih d' bl' hrel' hin'
      simpa only [decRun, hstep] using this
    · obtain ⟨d', bl', heq, hrel', -, hin'⟩ := (pull_spec w hw8 d bl hrel hin).1 hge
      have hstep : (d.pull w).1 = d' := by rw [heq]
      have := ih d' bl' hrel' hin'
      simpa only [decRun, hstep] using this

/-! ### Run-threshold behaviour at the start of the stream -/

theorem leadCount_other_eq_zero {b : Bool} {L : List Bool} (h : 1 ≤ leadCount b L) :
    leadCount (!b) L = 0 := by
  have h1 : L.take 1 = List.replicate 1 b := take_eq_replicate_of_le_leadCount h
  cases L with
  | nil => simp at h
  | cons x t =>
    simp [List.replicate] at h1
    rw [h1]
    exact leadCount_cons_ne (by cases b <;> decide) t

theorem encSpec_run8_zeros {L : List Bool} (h : leadCount false L = 8) :
    ∃ rest, encSpec .init 0 L = detail.make_zeros 8 :: rest := by
  rw [encSpec_init_enterZ (by omega)]
  by_cases hemp : (L.drop (leadCount false L)).isEmpty
  · rw [encSpec_zeros_end (by omega) hemp, h]
    exact ⟨[], rfl⟩
  · rw [encSpec_zeros_emit (by omega) hemp, h]
    exact ⟨_, rfl⟩

theorem encSpec_run8_ones {L : List Bool} (h : leadCount true L = 8)
    (hz : leadCount false L ≤ 7) :
    ∃ rest, encSpec .init 0 L = detail.make_ones 8 :: rest := by
  rw [encSpec_init_enterO (by omega) (by omega)]
  by_cases hemp : (L.drop (leadCount true L)).isEmpty
  · rw [encSpec_ones_end (by omega) hemp, h]
    exact ⟨[], rfl⟩
  · rw [encSpec_ones_emit (by omega) hemp, h]
    exact ⟨_, rfl⟩

theorem encSpec_run71_zeros {L : List Bool} (h : leadCount false L = 71) :
    encSpec .init 0 L = detail.make_zeros 71 :: encSpec .init 0 (L.drop 71) := by
  rw [encSpec_init_enterZ (by omega), encSpec_zeros_big (by omega), h]
  simp

theorem encSpec_run71_ones {L : List Bool} (h : leadCount true L = 71)
    (hz : leadCount false L ≤ 7) :
    encSpec .init 0 L = detail.make_ones 71 :: encSpec .init 0 (L.drop 71) := by
  rw [encSpec_init_enterO (by omega) (by omega), encSpec_ones_big (by omega), h]
  simp

/-- A run of exactly 72 identical bits of either value at the start of the
stream: a count-71 run block of that bit value, then a literal block whose
least-significant payload bit is the one leftover run bit (no count-9 run
block, and no terminator taken from the max-length run). -/
theorem encSpec_run72 (b : Bool) {L : List Bool} (h : leadCount b L = 72) :
    ∃ rest, encSpec .init 0 L
      = (cond b (detail.make_ones 71) (detail.make_zeros 71))
        :: detail.make_literal (bitsToNat ((L.drop 71).take 7)) :: rest ∧
      bitsToNat ((L.drop 71).take 7) % 2 = cond b 1 0 := by
  have hz' : leadCount b (L.drop 71) = 1 := by
    rw [leadCount_drop (by omega)]
    omega
  have hhead : ∃ t, L.drop 71 = b :: t := by
    have h1 : (L.drop 71).take 1 = List.replicate 1 b :=
      take_eq_replicate_of_le_leadCount (by omega)
    cases hdl : L.drop 71 with
    | nil =>
      rw [hdl] at hz'
      simp [leadCount] at hz'
    | cons x t =>
      rw [hdl] at h1
      simp [List.replicate] at h1
      exact ⟨t, by rw [h1]⟩
  obtain ⟨t, ht⟩ := hhead
  have hmod : bitsToNat ((L.drop 71).take 7) % 2 = cond b 1 0 := by
    have h7 : ((b :: t).take 7) = b :: t.take 6 := rfl
    rw [ht, h7, bitsToNat_cons]
    cases b
    · have h0 : (if (false = true) then 1 else 0) = 0 := by simp
      rw [h0]
      simp only [cond]
      omega
    · have h0 : (if (true = true) then 1 else 0) = 1 := by simp
      rw [h0]
      simp only [cond]
      omega
  have ho' : leadCount (!b) (L.drop 71) = 0 := by
    rw [ht]
    exact leadCount_cons_ne (by cases b <;> decide) t
  cases b with
  | false =>
    rw [encSpec_init_enterZ (by omega), encSpec_zeros_big (by omega), h]
    have hmin : min (71 - 0) 72 = 71 := by norm_num
    rw [hmin]
    have hho : leadCount true (L.drop 71) = 0 := by
      have hh := ho'
      simp only [Bool.not_false] at hh
      exact hh
    rw [encSpec_init_literal (by omega) (by omega) (by rw [ht]; simp)]
    exact ⟨_, rfl, hmod⟩
  | true =>
    have hzL : leadCount false L = 0 := by
      have hh := leadCount_other_eq_zero (b := true) (L := L) (by omega)
      simpa using hh
    rw [encSpec_init_enterO (by omega) (by omega), encSpec_ones_big (by omega), h]
    have hmin : min (71 - 0) 72 = 71 := by norm_num
    rw [hmin]
    have hhz : leadCount false (L.drop 71) = 0 := by
      have hh := ho'
      simp only [Bool.not_true] at hh
      exact hh
    rw [encSpec_init_literal (by omega) (by omega) (by rw [ht]; simp)]
    exact ⟨_, rfl, hmod⟩

/-! ### The `make_zeros`/`make_ones` call arguments of the encoder

The assertions of `make_zeros`/`make_ones` are about the `count` *argument*
at each call site, which the emitted byte does not determine (the builders
truncate out-of-range counts).  The functions below record, mirroring the
source call sites one for one, the count argument of every `make_zeros` /
`make_ones` call the encoder performs. -/

theorem countr_zero_le (w v : Nat) : detail.countr_zero w v ≤ w := by
  induction w generalizing v with
  | zero => simp [detail.countr_zero]
  | succ w ih =>
    simp only [detail.countr_zero]
    split_ifs
    · omega
    · have := ih (v / 2)
      omega

theorem countr_one_le (w v : Nat) : detail.countr_one w v ≤ w := by
  unfold detail.countr_one
  exact countr_zero_le w _

/-- The `count` arguments of the `make_zeros`/`make_ones` calls one private
push step performs (one entry per call site reached, in source order). -/
def enc_push_step_calls (e : encoder) (zeros ones : Nat) : List Nat :=
  match e.state with
  | .init => []
  | .zeros =>
    if 0 < zeros then
      if e.rlen + min (detail.max_count - e.rlen) zeros = detail.max_count
      then [detail.max_count] else []
    else [e.rlen]
  | .ones =>
    if 0 < ones then
      if e.rlen + min (detail.max_count - e.rlen) ones = detail.max_count
      then [detail.max_count] else []
    else [e.rlen]

theorem enc_push_step_calls_asserts {e : encoder} (hst : stateOk e) (zeros ones : Nat) :
    ∀ c ∈ enc_push_step_calls e zeros ones,
      detail.min_brle_len ≤ c ∧ c ≤ detail.max_count := by
  obtain ⟨out, buf, bsize, st, rlen⟩ := e
  obtain ⟨h1, h2⟩ := hst
  intro c hc
  cases st with
  | init => simp [enc_push_step_calls] at hc
  | zeros =>
    have h3 := h2 (fun hcon => by cases hcon)
    simp only [enc_push_step_calls] at hc
    simp only [detail.min_brle_len, detail.max_count] at *
    split_ifs at hc with ha hb
    · simp at hc
      omega
    · simp at hc
    · simp at hc
      omega
  | ones =>
    have h3 := h2 (fun hcon => by cases hcon)
    simp only [enc_push_step_calls] at hc
    simp only [detail.min_brle_len, detail.max_count] at *
    split_ifs at hc with ha hb
    · simp at hc
      omega
    · simp at hc
    · simp at hc
      omega

/-- One private push step preserves the run-length invariant, for any caps
`zeros`, `ones` at most 70 (the loops only pass `countr` values ≤ w ≤ 64). -/
theorem enc_push_step_stateOk {e : encoder} (hst : stateOk e) (sb zeros ones : Nat)
    (hz : zeros ≤ 70) (ho : ones ≤ 70) :
    stateOk (enc_push_step e sb zeros ones).1 := by
  obtain ⟨out, buf, bsize, st, rlen⟩ := e
  obtain ⟨h1, h2⟩ := hst
  cases st with
  | init =>
    have hr0 : rlen = 0 := h1 rfl
    simp only [enc_push_step]
    split_ifs with ha hb
    · refine ⟨(fun h => nomatch h), fun _ => ?_⟩
      show 8 ≤ zeros ∧ zeros ≤ 70
      simp only [detail.literal_size] at ha
      omega
    · refine ⟨(fun h => nomatch h), fun _ => ?_⟩
      show 8 ≤ ones ∧ ones ≤ 70
      simp only [detail.literal_size] at hb
      omega
    · exact ⟨fun _ => hr0, fun h => absurd rfl h⟩
  | zeros =>
    have h3 := h2 (fun hcon => by cases hcon)
    have h4 : 8 ≤ rlen ∧ rlen ≤ 70 := h3
    simp only [enc_push_step]
    split_ifs with ha hb
    · exact ⟨fun _ => rfl, fun h => absurd rfl h⟩
    · refine ⟨(fun h => nomatch h), fun _ => ?_⟩
      show 8 ≤ rlen + min (detail.max_count - rlen) zeros ∧
        rlen + min (detail.max_count - rlen) zeros ≤ 70
      simp only [detail.max_count] at hb ⊢
      omega
    · exact ⟨fun _ => rfl, fun h => absurd rfl h⟩
  | ones =>
    have h3 := h2 (fun hcon => by cases hcon)
    have h4 : 8 ≤ rlen ∧ rlen ≤ 70 := h3
    simp only [enc_push_step]
    split_ifs with ha hb
    · exact ⟨fun _ => rfl, fun h => absurd rfl h⟩
    · refine ⟨(fun h => nomatch h), fun _ => ?_⟩
      show 8 ≤ rlen + min (detail.max_count - rlen) ones ∧
        rlen + min (detail.max_count - rlen) ones ≤ 70
      simp only [detail.max_count] at hb ⊢
      omega
    · exact ⟨fun _ => rfl, fun h => absurd rfl h⟩

/-- The call arguments recorded along the do/while loop of `encoder::push`,
mirroring `enc_push_loop` iteration for iteration. -/
def enc_push_loop_calls (w data : Nat) : Nat → encoder → Nat → Int → List Nat
  | 0, _, _, _ => []
  | fuel + 1, e, shift_buffer, bits =>
    let sb := shift_buffer ||| ((data <<< bits.toNat) % 2 ^ w)
    let zeros := detail.countr_zero w sb
    let ones := detail.countr_one w sb
    let step := enc_push_step e sb zeros ones
    let bits2 := bits - (step.2 : Int)
    enc_push_step_calls e zeros ones ++
      (if (w : Int) ≤ bits2 + (w : Int) then
        enc_push_loop_calls w data fuel step.1 (sb >>> step.2) bits2
      else [])

theorem enc_push_loop_calls_asserts (w data : Nat) (hw64 : w ≤ 64) :
    ∀ (fuel : Nat) (e : encoder) (sb : Nat) (bits : Int), stateOk e →
      (∀ c ∈ enc_push_loop_calls w data fuel e sb bits,
        detail.min_brle_len ≤ c ∧ c ≤ detail.max_count) ∧
      stateOk (enc_push_loop w data fuel e sb bits).1 := by
  intro fuel
  induction fuel with
  | zero =>
    intro e sb bits hst
    refine ⟨?_, hst⟩
    intro c hc
    simp [enc_push_loop_calls] at hc
  | succ fuel ih =>
    intro e sb bits hst
    have hz : detail.countr_zero w (sb ||| ((data <<< bits.toNat) % 2 ^ w)) ≤ 70 := by
      have := countr_zero_le w (sb ||| ((data <<< bits.toNat) % 2 ^ w))
      omega
    have ho : detail.countr_one w (sb ||| ((data <<< bits.toNat) % 2 ^ w)) ≤ 70 := by
      have := countr_one_le w (sb ||| ((data <<< bits.toNat) % 2 ^ w))
      omega
    have hstep := enc_push_step_stateOk hst
      (sb ||| ((data <<< bits.toNat) % 2 ^ w)) _ _ hz ho
    constructor
    · intro c hc
      simp only [enc_push_loop_calls] at hc
      rcases List.mem_append.mp hc with h | h
      · exact enc_push_step_calls_asserts hst _ _ c h
      · split at h
        · exact (ih _ _ _ hstep).1 c h
        · simp at h
    · simp only [enc_push_loop]
      split
      · exact (ih _ _ _ hstep).2
      · exact hstep

/-- The call arguments of one public `encoder::push`. -/
def pushCalls (w : Nat) (e : encoder) (data : Nat) : List Nat :=
  enc_push_loop_calls w data (w + 1) e e.buffer e.buffer_size

theorem pushCalls_asserts (w : Nat) (hw64 : w ≤ 64) (e : encoder) (data : Nat)
    (hst : stateOk e) :
    ∀ c ∈ pushCalls w e data, detail.min_brle_len ≤ c ∧ c ≤ detail.max_count :=
  (enc_push_loop_calls_asserts w data hw64 (w + 1) e e.buffer e.buffer_size hst).1

theorem push_stateOk (w : Nat) (hw64 : w ≤ 64) (e : encoder) (data : Nat)
    (hst : stateOk e) : stateOk (e.push w data) := by
  have h := (enc_push_loop_calls_asserts w data hw64 (w + 1) e e.buffer e.buffer_size hst).2
  simp only [encoder.push]
  exact h

/-- The call arguments recorded along the drain loop of `encoder::flush`,
mirroring `enc_flush_loop` iteration for iteration. -/
def enc_flush_loop_calls (w : Nat) : Nat → encoder → Nat → Int → List Nat
  | 0, _, _, _ => []
  | fuel + 1, e, buffer, bsize =>
    if (detail.literal_size : Int) ≤ bsize ∨ e.state ≠ .init then
      let zeros := min ((detail.countr_zero w buffer : Int)) bsize
      let ones := min ((detail.countr_one w buffer : Int)) bsize
      let step := enc_push_step e buffer zeros.toNat ones.toNat
      enc_push_step_calls e zeros.toNat ones.toNat ++
        enc_flush_loop_calls w fuel step.1 (buffer >>> step.2) (bsize - (step.2 : Int))
    else []

theorem enc_flush_loop_calls_asserts (w : Nat) (hw64 : w ≤ 64) :
    ∀ (fuel : Nat) (e : encoder) (buffer : Nat) (bsize : Int), stateOk e →
      (∀ c ∈ enc_flush_loop_calls w fuel e buffer bsize,
        detail.min_brle_len ≤ c ∧ c ≤ detail.max_count) ∧
      stateOk (enc_flush_loop w fuel e buffer bsize).1 := by
  intro fuel
  induction fuel with
  | zero =>
    intro e buffer bsize hst
    refine ⟨?_, hst⟩
    intro c hc
    simp [enc_flush_loop_calls] at hc
  | succ fuel ih =>
    intro e buffer bsize hst
    have hz : (min ((detail.countr_zero w buffer : Int)) bsize).toNat ≤ 70 := by
      have := countr_zero_le w buffer
      omega
    have ho : (min ((detail.countr_one w buffer : Int)) bsize).toNat ≤ 70 := by
      have := countr_one_le w buffer
      omega
    have hstep := enc_push_step_stateOk hst buffer _ _ hz ho
    constructor
    · intro c hc
      simp only [enc_flush_loop_calls] at hc
      split at hc
      · rcases List.mem_append.mp hc with h | h
        · exact enc_push_step_calls_asserts hst _ _ c h
        · exact (ih _ _ _ hstep).1 c h
      · simp at hc
    · simp only [enc_flush_loop]
      split
      · exact (ih _ _ _ hstep).2
      · exact hst

/-- The `make_zeros`/`make_ones` call sites of the tail `switch` of
`encoder::flush` (dead once the drain loop has returned to `init`, but
recorded faithfully). -/
def enc_flush_tail_calls (e : encoder) : List Nat :=
  match e.state with
  | .init => []
  | .zeros => [e.rlen]
  | .ones => [e.rlen]

theorem enc_flush_tail_calls_asserts {e : encoder} (hst : stateOk e) :
    ∀ c ∈ enc_flush_tail_calls e, detail.min_brle_len ≤ c ∧ c ≤ detail.max_count := by
  obtain ⟨out, buf, bsize, st, rlen⟩ := e
  obtain ⟨h1, h2⟩ := hst
  intro c hc
  cases st with
  | init => simp [enc_flush_tail_calls] at hc
  | zeros =>
    have h3 := h2 (fun hcon => by cases hcon)
    have h4 : 8 ≤ rlen ∧ rlen ≤ 70 := h3
    simp [enc_flush_tail_calls] at hc
    simp only [detail.min_brle_len, detail.max_count]
    omega
  | ones =>
    have h3 := h2 (fun hcon => by cases hcon)
    have h4 : 8 ≤ rlen ∧ rlen ≤ 70 := h3
    simp [enc_flush_tail_calls] at hc
    simp only [detail.min_brle_len, detail.max_count]
    omega

/-- The call arguments of one public `encoder::flush`. -/
def flushCalls (w : Nat) (e : encoder) : List Nat :=
  enc_flush_loop_calls w (w + 2) e e.buffer e.buffer_size ++
    enc_flush_tail_calls (enc_flush_loop w (w + 2) e e.buffer e.buffer_size).1

theorem flushCalls_asserts (w : Nat) (hw64 : w ≤ 64) (e : encoder) (hst : stateOk e) :
    ∀ c ∈ flushCalls w e, detail.min_brle_len ≤ c ∧ c ≤ detail.max_count := by
  intro c hc
  rcases List.mem_append.mp hc with h | h
  · exact (enc_flush_loop_calls_asserts w hw64 (w + 2) e e.buffer e.buffer_size hst).1 c h
  · exact enc_flush_tail_calls_asserts
      ((enc_flush_loop_calls_asserts w hw64 (w + 2) e e.buffer e.buffer_size hst).2) c h

theorem flush_stateOk (w : Nat) (e : encoder) : stateOk (e.flush w) := by
  simp only [encoder.flush]
  split
  · split
    · exact ⟨fun _ => rfl, fun h => absurd rfl h⟩
    · exact ⟨fun _ => rfl, fun h => absurd rfl h⟩
  · exact ⟨fun _ => rfl, fun h => absurd rfl h⟩
  · exact ⟨fun _ => rfl, fun h => absurd rfl h⟩

/-- All `make_zeros`/`make_ones` call arguments over an interleaving of
public push/flush calls. -/
def encRunCalls (w : Nat) : encoder → List EncOp → List Nat
  | _, [] => []
  | e, .push d :: ops => pushCalls w e d ++ encRunCalls w (e.push w d) ops
  | e, .flush :: ops => flushCalls w e ++ encRunCalls w (e.flush w) ops

theorem encRunCalls_asserts (w : Nat) (hw64 : w ≤ 64) :
    ∀ (ops : List EncOp) (e : encoder), stateOk e →
      ∀ c ∈ encRunCalls w e ops, detail.min_brle_len ≤ c ∧ c ≤ detail.max_count := by
  intro ops
  induction ops with
  | nil =>
    intro e hst c hc
    simp [encRunCalls] at hc
  | cons op ops ih =>
    intro e hst c hc
    cases op with
    | push d =>
      simp only [encRunCalls] at hc
      rcases List.mem_append.mp hc with h | h
      · exact pushCalls_asserts w hw64 e d hst c h
      · exact ih (e.push w d) (push_stateOk w hw64 e d hst) c h
    | flush =>
      simp only [encRunCalls] at hc
      rcases List.mem_append.mp hc with h | h
      · exact flushCalls_asserts w hw64 e hst c h
      · exact ih (e.flush w) (flush_stateOk w e) c h

theorem initSt_rel (w : Nat) (hw : 0 < w) : EncRel w encoder.initSt [] := by
  refine ⟨rfl, rfl, by simp only [List.length_nil]; omega, ?_, ?_⟩
  · intro _
    rfl
  · intro hcon
    exact absurd rfl hcon

/-! ### The claims -/

/-- C1: for every word width W ∈ {8,16,32,64} and every finite sequence of
W-bit unsigned words, decoding the encoder's output yields exactly the
original word sequence. -/
theorem C1_roundtrip (w : Nat) (hw : w = 8 ∨ w = 16 ∨ w = 32 ∨ w = 64)
    (ws : List Nat) (hws : ∀ x ∈ ws, x < 2 ^ w) :
    decode w (encode w ws) = ws :=
  decode_encode w (by rcases hw with h | h | h | h <;> omega)
    (by rcases hw with h | h | h | h <;> omega) ws hws

theorem C1_witness : decode 8 (encode 8 [255, 0, 170]) = [255, 0, 170] :=
  C1_roundtrip 8 (Or.inl rfl) [255, 0, 170] (by decide)

/-- C2: the 8-bit word sequence FF FF 0F 00 00 00 00 AA encodes to exactly
the three blocks CC 9C 2A, and decoding those three blocks with 8-bit words
reproduces the original eight bytes. -/
theorem C2_readme_example :
    encode 8 [0xFF, 0xFF, 0x0F, 0x00, 0x00, 0x00, 0x00, 0xAA] = [0xCC, 0x9C, 0x2A] ∧
    decode 8 [0xCC, 0x9C, 0x2A] = [0xFF, 0xFF, 0x0F, 0x00, 0x00, 0x00, 0x00, 0xAA] := by
  decide

/-- C3: encoding N words of width W never produces more than ⌈N·W/7⌉ blocks,
and when the input bit stream has no run of 8 or more identical bits anywhere
(the worst case), exactly ⌈N·W/7⌉ blocks are produced. -/
theorem C3_size_bound (w : Nat) (hw8 : 8 ≤ w) (hw64 : w ≤ 64) (ws : List Nat)
    (hws : ∀ x ∈ ws, x < 2 ^ w) :
    (encode w ws).length ≤ (ws.length * w + 6) / 7 ∧
    (NoLongRun (wordsToBits w ws) →
      (encode w ws).length = (ws.length * w + 6) / 7) := by
  rw [encode_eq_encSpec w hw8 hw64 hws]
  have hmulc : w * ws.length = ws.length * w := Nat.mul_comm w ws.length
  constructor
  · have h := encSpec_length_le .init 0 (wordsToBits w ws) trivial
    simp only [encPend] at h
    rw [wordsToBits_length] at h
    rw [Nat.le_div_iff_mul_le (by norm_num)]
    omega
  · intro hnr
    have h := encSpec_length_worst (wordsToBits w ws).length (wordsToBits w ws)
      (le_refl _) hnr
    rw [h, wordsToBits_length]
    congr 1
    omega

theorem C3_witness :
    (encode 8 [170]).length ≤ ([170].length * 8 + 6) / 7 :=
  (C3_size_bound 8 (by norm_num) (by norm_num) [170] (by decide)).1

/-- C4 counterexample: a run of exactly 72 zeros (nine zero bytes) encodes
as the two blocks BF 00, i.e. a count-71 zeros run followed by a literal
block, not by a count-9 run block as the claim states. -/
theorem C4_counterexample :
    encode 8 [0, 0, 0, 0, 0, 0, 0, 0, 0] = [0xBF, 0x00] ∧
    leadCount false (wordsToBits 8 [0, 0, 0, 0, 0, 0, 0, 0, 0]) = 72 ∧
    detail.brle8_mode 0xBF = detail.mode_zeros ∧ detail.count 0xBF = 71 ∧
    detail.brle8_mode 0x00 ≠ detail.mode_zeros ∧
    detail.brle8_mode 0x00 ≠ detail.mode_ones := by
  decide

/-- C4 (amended): a stream that starts with a run of exactly 72 identical
bits of either value encodes as a count-71 run block of that bit value (with
no terminator stolen from it) followed by a literal block whose first payload
bit is the one leftover run bit — not by a count-9 run block. -/
theorem C4_amended (w : Nat) (hw8 : 8 ≤ w) (hw64 : w ≤ 64) (ws : List Nat)
    (hws : ∀ x ∈ ws, x < 2 ^ w) (b : Bool)
    (h72 : leadCount b (wordsToBits w ws) = 72) :
    ∃ rest,
      encode w ws
        = (cond b (detail.make_ones 71) (detail.make_zeros 71))
          :: detail.make_literal
               (bitsToNat (((wordsToBits w ws).drop 71).take 7)) :: rest ∧
      bitsToNat (((wordsToBits w ws).drop 71).take 7) % 2 = cond b 1 0 := by
  rw [encode_eq_encSpec w hw8 hw64 hws]
  exact encSpec_run72 b h72

theorem C4_amended_witness :
    ∃ rest,
      encode 8 [0, 0, 0, 0, 0, 0, 0, 0, 0]
        = detail.make_zeros 71
          :: detail.make_literal
               (bitsToNat (((wordsToBits 8 [0, 0, 0, 0, 0, 0, 0, 0, 0]).drop 71).take 7))
          :: rest ∧
      bitsToNat (((wordsToBits 8 [0, 0, 0, 0, 0, 0, 0, 0, 0]).drop 71).take 7) % 2 = 0 :=
  C4_amended 8 (by norm_num) (by norm_num) [0, 0, 0, 0, 0, 0, 0, 0, 0]
    (by decide) false (by decide)

/-- C5 counterexample: the words 213, 0, 1 contain a run of exactly 8 zero
bits (bits 8..15), yet the encoding consists of four literal blocks and no
run block of count 8. -/
theorem C5_counterexample :
    encode 8 [213, 0, 1] = [85, 1, 4, 0] ∧
    leadCount false ((wordsToBits 8 [213, 0, 1]).drop 8) = 8 ∧
    (∀ b ∈ [85, 1, 4, 0], detail.brle8_mode b ≠ detail.mode_zeros ∧
      detail.brle8_mode b ≠ detail.mode_ones) := by
  decide

/-- C5 (amended): the run thresholds hold for a run at the start of the
pending stream (where the encoder is in its initial state): a leading run of
at most 7 bits starts a literal block, a leading run of exactly 8 bits
produces a count-8 run block, and a leading run of exactly 71 bits produces
a single count-71 run block covering all 71 bits. -/
theorem C5_amended (w : Nat) (hw8 : 8 ≤ w) (hw64 : w ≤ 64) (ws : List Nat)
    (hws : ∀ x ∈ ws, x < 2 ^ w) :
    (leadCount false (wordsToBits w ws) ≤ 7 → leadCount true (wordsToBits w ws) ≤ 7 →
      wordsToBits w ws ≠ [] →
      ∃ v rest, encode w ws = detail.make_literal v :: rest) ∧
    (leadCount false (wordsToBits w ws) = 8 →
      ∃ rest, encode w ws = detail.make_zeros 8 :: rest) ∧
    (leadCount true (wordsToBits w ws) = 8 →
      ∃ rest, encode w ws = detail.make_ones 8 :: rest) ∧
    (leadCount false (wordsToBits w ws) = 71 →
      encode w ws = detail.make_zeros 71 :: encSpec .init 0 ((wordsToBits w ws).drop 71)) ∧
    (leadCount true (wordsToBits w ws) = 71 →
      encode w ws = detail.make_ones 71 :: encSpec .init 0 ((wordsToBits w ws).drop 71)) := by
  rw [encode_eq_encSpec w hw8 hw64 hws]
  refine ⟨?_, ?_, ?_, ?_, ?_⟩
  · intro hz ho hne
    rw [encSpec_init_literal (by omega) (by omega)
      (by cases hL : wordsToBits w ws <;> simp_all)]
    exact ⟨_, _, rfl⟩
  · intro h8
    exact encSpec_run8_zeros h8
  · intro h8
    have hz : leadCount false (wordsToBits w ws) = 0 := by
      have := leadCount_other_eq_zero (b := true) (L := wordsToBits w ws) (by omega)
      simpa using this
    exact encSpec_run8_ones h8 (by omega)
  · intro h71
    exact encSpec_run71_zeros h71
  · intro h71
    have hz : leadCount false (wordsToBits w ws) = 0 := by
      have := leadCount_other_eq_zero (b := true) (L := wordsToBits w ws) (by omega)
      simpa using this
    exact encSpec_run71_ones h71 (by omega)

theorem C5_amended_witness :
    ∃ rest, encode 8 [0] = detail.make_zeros 8 :: rest :=
  (C5_amended 8 (by norm_num) (by norm_num) [0] (by decide)).2.1 (by decide)

/-- C6: the bulk decoder reproduces, word by word, exactly the concatenated
per-block bit streams, where a ZerosRun block of count < 71 contributes its
count zero bits followed by exactly one 1 bit, a OnesRun block of count < 71
contributes its count one bits followed by exactly one 0 bit, and a count-71
run block contributes exactly its 71 run bits with no terminator. -/
theorem C6_run_semantics (w : Nat) (hw8 : 8 ≤ w) (input : List brle8)
    (hin : ∀ b ∈ input, b < 256) :
    decode w input = wordsOfBits w (blocksBits input) ∧
    (∀ b, detail.brle8_mode b = detail.mode_zeros →
      blockBits b = List.replicate (detail.count b) false ++
        (if detail.count b < 71 then [true] else [])) ∧
    (∀ b, detail.brle8_mode b = detail.mode_ones →
      blockBits b = List.replicate (detail.count b) true ++
        (if detail.count b < 71 then [false] else [])) := by
  refine ⟨decode_eq_wordsOfBits w hw8 input hin, ?_, ?_⟩
  · intro b hb
    unfold blockBits
    rw [if_pos hb]
    simp only [detail.max_count]
  · intro b hb
    unfold blockBits
    rw [if_neg (by rw [hb]; decide), if_pos hb]
    simp only [detail.max_count]

theorem C6_witness : decode 8 [0x88] = wordsOfBits 8 (blocksBits [0x88]) :=
  (C6_run_semantics 8 (by norm_num) [0x88] (by decide)).1

/-- C7: over any interleaving of public push and flush calls on a fresh
encoder, with arbitrary data words, every count argument passed to
make_zeros or make_ones lies in the asserted range
min_brle_len ≤ count ≤ max_count (that is, [8, 71]); the assertions in
those constructors can never fire. -/
theorem C7_asserts (w : Nat) (hw64 : w ≤ 64) (ops : List EncOp) :
    ∀ c ∈ encRunCalls w encoder.initSt ops,
      detail.min_brle_len ≤ c ∧ c ≤ detail.max_count :=
  encRunCalls_asserts w hw64 ops encoder.initSt
    ⟨fun _ => rfl, fun h => absurd rfl h⟩

theorem C7_witness : detail.min_brle_len ≤ 8 ∧ 8 ≤ detail.max_count :=
  C7_asserts 8 (by norm_num) [.push 0, .flush] 8 (by decide)

/-- C8: after every completed public operation, the carry registers of both
machines hold between 0 (inclusive) and W (exclusive) buffered bits: for the
encoder after any interleaving of push/flush calls, and for the decoder after
any number of pull calls. -/
theorem C8_buffer_bounds (w : Nat) (hw8 : 8 ≤ w) (hw64 : w ≤ 64)
    (ops : List EncOp) (hops : ∀ op ∈ ops, EncOpValid w op)
    (input : List brle8) (hin : ∀ b ∈ input, b < 256) (n : Nat) :
    (0 ≤ (encRun w encoder.initSt ops).buffer_size ∧
      (encRun w encoder.initSt ops).buffer_size < (w : Int)) ∧
    (0 ≤ (decRun w n ⟨input, 0, 0, .read, 0⟩).buffer_size ∧
      (decRun w n ⟨input, 0, 0, .read, 0⟩).buffer_size < (w : Int)) := by
  constructor
  · obtain ⟨bl', hrel, -⟩ := encRun_invariant w hw8 hw64 ops encoder.initSt []
      (initSt_rel w (by omega))
      (by intro b hb; simp [encoder.initSt] at hb) hops
    obtain ⟨-, hbsz, hblw, -⟩ := hrel
    constructor
    · rw [hbsz]
      omega
    · rw [hbsz]
      omega
  · obtain ⟨bl', hrel, -⟩ := decRun_invariant w hw8 n ⟨input, 0, 0, .read, 0⟩ []
      ⟨rfl, by simp only [List.length_nil]; omega, Nat.two_pow_pos w, Or.inl rfl⟩ hin
    obtain ⟨hbsz, hblw, -, -⟩ := hrel
    constructor
    · rw [hbsz]
      omega
    · rw [hbsz]
      omega

theorem C8_witness :
    (0 ≤ (encRun 8 encoder.initSt [.push 0, .flush]).buffer_size ∧
      (encRun 8 encoder.initSt [.push 0, .flush]).buffer_size < (8 : Int)) ∧
    (0 ≤ (decRun 8 3 ⟨[0x80], 0, 0, .read, 0⟩).buffer_size ∧
      (decRun 8 3 ⟨[0x80], 0, 0, .read, 0⟩).buffer_size < (8 : Int)) :=
  C8_buffer_bounds 8 (by norm_num) (by norm_num) [.push 0, .flush]
    (by
      intro op hop
      rcases List.mem_cons.mp hop with h | h
      · subst h
        show (0 : Nat) < 2 ^ 8
        norm_num
      · rcases List.mem_cons.mp h with h2 | h2
        · subst h2
          trivial
        · simp at h2)
    [0x80] (by decide) 3

/-- C9 counterexample: on the single literal block 01 with 8-bit words, pull
returns Done even though the carry buffer then holds 7 bits (which are
discarded), refuting that Done is only signalled with an empty carry
buffer. -/
theorem C9_counterexample :
    (decoder.pull 8 ⟨[1], 0, 0, .read, 0⟩).2.status = .done ∧
    (decoder.pull 8 ⟨[1], 0, 0, .read, 0⟩).1.buffer_size = 7 := by
  decide

/-- C9 (amended): pull returns Done exactly when fewer than W bits are still
pending (input exhausted up to an incomplete word); on Done the input is
fully consumed and the machine rests in the read state, with any leftover
buffered bits (up to W-1 of them) silently discarded. -/
theorem C9_amended (w : Nat) (hw8 : 8 ≤ w) (d : decoder) (bl : List Bool)
    (hrel : DecRel w d bl) (hin : ∀ b ∈ d.input, b < 256) :
    ((d.pull w).2.status = .done ↔ (decPending d bl).length < w) ∧
    ((d.pull w).2.status = .done →
      (d.pull w).1.input = [] ∧ (d.pull w).1.state = .read) := by
  have hp := pull_spec w hw8 d bl hrel hin
  rcases Nat.lt_or_ge (decPending d bl).length w with hlt | hge
  · obtain ⟨d', bl', heq, hinp', hst', -⟩ := hp.2 hlt
    rw [heq]
    exact ⟨⟨fun _ => hlt, fun _ => rfl⟩, fun _ => ⟨hinp', hst'⟩⟩
  · obtain ⟨d', bl', heq, -, -, -⟩ := hp.1 hge
    rw [heq]
    constructor
    · constructor
      · intro hcon
        cases hcon
      · intro hcon
        omega
    · intro hcon
      cases hcon

theorem C9_amended_witness :
    ((decoder.pull 8 ⟨[], 0, 0, .read, 0⟩).2.status = .done ↔
      (decPending ⟨[], 0, 0, .read, 0⟩ []).length < 8) ∧
    ((decoder.pull 8 ⟨[], 0, 0, .read, 0⟩).2.status = .done →
      (decoder.pull 8 ⟨[], 0, 0, .read, 0⟩).1.input = [] ∧
      (decoder.pull 8 ⟨[], 0, 0, .read, 0⟩).1.state = .read) :=
  C9_amended 8 (by norm_num) ⟨[], 0, 0, .read, 0⟩ []
    ⟨rfl, by norm_num, by norm_num, Or.inl rfl⟩
    (by intro b hb; simp at hb)

/-- C10: decode with word width W emits exactly floor(B/W) words, where B is
the total logical bit count of the block sequence (7 per literal, count per
count-71 run block, count+1 per shorter run block); the trailing B mod W bits
are discarded, never emitted as a partial word. -/
theorem C10_word_count (w : Nat) (hw8 : 8 ≤ w) (input : List brle8)
    (hin : ∀ b ∈ input, b < 256) :
    (decode w input).length = (blocksBits input).length / w ∧
    decode w input = wordsOfBits w (blocksBits input) ∧
    (∀ b, b < 256 → (blockBits b).length =
      if detail.brle8_mode b = detail.mode_zeros ∨ detail.brle8_mode b = detail.mode_ones
      then detail.count b + (if detail.count b < 71 then 1 else 0)
      else 7) := by
  have hd := decode_eq_wordsOfBits w hw8 input hin
  refine ⟨?_, hd, by decide⟩
  rw [hd]
  exact wordsOfBits_length w (by omega) (blocksBits input).length _ (le_refl _)

theorem C10_witness :
    (decode 8 [0x88]).length = (blocksBits [0x88]).length / 8 :=
  (C10_word_count 8 (by norm_num) [0x88] (by decide)).1

end Brle
end PG
